import Mathlib

/-!
Formal model of the polynomial circuit chips in `src/chips/poly_operations.rs`
of the zk-fhe repository.

Modelling conventions, shared by every definition below:

* A circuit value (`AssignedValue<F>`) is modelled by its integer witness value
  (`ℤ`).  The proving field `F` is only used by the chips through exact integer
  arithmetic: the chip contracts require the caller to pick the modulus `Q`
  such that every intermediate value stays strictly below the field prime `p`
  (spec §3, §4.6), so field addition and multiplication coincide with integer
  addition and multiplication on the values handled here.
* Rust `assert!` / `assert_eq!` macros abort circuit construction; an aborting
  computation is modelled by `Option.none`.  Rust `usize`/`u64` subtraction
  underflow likewise panics and is modelled by `checkedSub` returning `none`.
* Constraints emitted into the `Context` are evaluated on the honestly
  assigned witness values where a chip's accept/reject behaviour matters
  (`poly_reduce`, `poly_divide_by_cyclo`): those chips return, next to the
  produced witness values, a `Bool` that is `true` exactly when every emitted
  range / equality constraint is satisfied by the assigned values.  Gate
  constraints produced by `gate.add` / `gate.mul` always hold on the honestly
  assigned values (the gate output is assigned the сonstrained combination),
  so they contribute no conjunct to that flag.
* A separate, variable-indexed embedding of the two multiplication chips is
  given further below (`GCtx`, `mulTraceAux`, …) in order to reason about
  non-honest satisfying assignments of the emitted constraint systems.
-/

namespace ZkFhe

/-- Rust unsigned subtraction `a - b`: panics (aborts construction) on
underflow, which we model by `none`. -/
def checkedSub (a b : ℕ) : Option ℕ :=
  if b ≤ a then some (a - b) else none

/-- A Rust `assert!` / `assert_eq!`: aborts construction (`none`) when the
condition fails. -/
def assertC (c : Prop) [Decidable c] : Option Unit :=
  if c then some () else none

/-- Sequencing of abortable construction steps (`Option.bind`; kept as its own
definition so that long construction chains stay tractable). -/
@[noinline] def obind {α β : Type} (x : Option α) (f : α → Option β) : Option β :=
  Option.bind x f

/-- Helper for `rustBits`: binary length of `n` computed with explicit fuel so
that it reduces by `rfl`/`decide`. -/
def bitLenAux : ℕ → ℕ → ℕ
  | 0, _ => 0
  | fuel + 1, n => if n = 0 then 0 else bitLenAux fuel (n / 2) + 1

/-- Length of `format!("{:b}", n)` in the Rust source (line 350-354): the
number of binary digits of `n`, where `0` prints as `"0"` (one digit). -/
def rustBits (n : ℕ) : ℕ :=
  if n = 0 then 1 else bitLenAux n n

/-- `poly_add` (lines 16-37).  Adds coefficient-wise with one addition gate per
coefficient; asserts `a.len() - 1 == b.len() - 1` and `a.len() - 1 == DEG`
before emitting gates and `c.len() - 1 == DEG` afterwards. -/
def poly_add (DEG : ℕ) (a b : List ℤ) : Option (List ℤ) :=
  obind (checkedSub a.length 1) fun aDeg =>
  obind (checkedSub b.length 1) fun bDeg =>
  obind (assertC (aDeg = bDeg)) fun _ =>
  obind (assertC (aDeg = DEG)) fun _ =>
  let c := (List.range (DEG + 1)).map (fun i => a.getD i 0 + b.getD i 0)
  obind (checkedSub c.length 1) fun cDeg =>
  obind (assertC (cDeg = DEG)) fun _ =>
  some c

/-- The value accumulated for output coefficient `i` of `poly_mul_equal_deg`
(lines 57-79): the products of the two branches of the `if i < DEG + 1` split,
folded onto a zero seed witness. -/
def eqCoeff (a b : List ℤ) (DEG i : ℕ) : ℤ :=
  (if i < DEG + 1 then
      (List.range (i + 1)).map (fun j => a.getD j 0 * b.getD (i - j) 0)
    else
      (List.range' (i - DEG) (DEG + 1 - (i - DEG))).map
        (fun j => a.getD j 0 * b.getD (i - j) 0)).foldl (· + ·) 0

/-- `poly_mul_equal_deg` (lines 45-85), witness values.  Asserts the two
degrees are equal and equal to `DEG`, produces the `2*DEG+1` convolution
coefficients, asserts the output degree is `2*DEG`. -/
def poly_mul_equal_deg (DEG : ℕ) (a b : List ℤ) : Option (List ℤ) :=
  obind (checkedSub a.length 1) fun aDeg =>
  obind (checkedSub b.length 1) fun bDeg =>
  obind (assertC (aDeg = bDeg)) fun _ =>
  obind (assertC (aDeg = DEG)) fun _ =>
  let c := (List.range (2 * DEG + 1)).map (fun i => eqCoeff a b DEG i)
  obind (checkedSub c.length 1) fun cDeg =>
  obind (assertC (cDeg = 2 * DEG)) fun _ =>
  some c

/-- The value accumulated for output coefficient `i` of `poly_mul_diff_deg`
(lines 104-121): products `a[j] * b[i-j]` for `j ≤ aDeg` and `i - j ≤ bDeg`,
folded onto a zero seed witness. -/
def diffCoeff (a b : List ℤ) (aDeg bDeg i : ℕ) : ℤ :=
  ((List.range (i + 1)).filterMap (fun j =>
      if j ≤ aDeg ∧ i - j ≤ bDeg then some (a.getD j 0 * b.getD (i - j) 0)
      else none)).foldl (· + ·) 0

/-- `poly_mul_diff_deg` (lines 92-128), witness values.  Emits no shape
assertion; the only abort points are the `a.len() - 1` / `b.len() - 1`
underflows on empty inputs.  Asserts `c.len() - 1 == c_deg` at the end. -/
def poly_mul_diff_deg (a b : List ℤ) : Option (List ℤ) :=
  obind (checkedSub a.length 1) fun aDeg =>
  obind (checkedSub b.length 1) fun bDeg =>
  let c := (List.range (aDeg + bDeg + 1)).map (fun i => diffCoeff a b aDeg bDeg i)
  obind (checkedSub c.length 1) fun cDeg =>
  obind (assertC (cDeg = aDeg + bDeg)) fun _ =>
  some c

/-- Modelled from the spec (§6, range capability): the constraints emitted by
one `range.div_mod(ctx, x, Q, numBits)` call, evaluated on the honestly
assigned quotient `x / Q` and remainder `x % Q`: the division identity and
`0 ≤ r < Q` hold, and both quotient and remainder must fit in `numBits` bits
(in the field this means their representatives lie in `[0, 2^numBits)`).
The identity `x = (x / Q) * Q + x % Q` holds definitionally for the honest
pair and is omitted. -/
def divModOK (x : ℤ) (Q numBits : ℕ) : Bool :=
  decide (0 ≤ x / (Q : ℤ) ∧ x / (Q : ℤ) < 2 ^ numBits ∧
    0 ≤ x % (Q : ℤ) ∧ x % (Q : ℤ) < 2 ^ numBits ∧ x % (Q : ℤ) < (Q : ℤ))

/-- Modelled from the spec (§6, range capability): the constraint emitted by
`range.check_less_than_safe(ctx, x, b)`, evaluated on the honest value: the
value is range-checked into `[0, b)`. -/
def ltCheck (x : ℤ) (b : ℕ) : Bool :=
  decide (0 ≤ x ∧ x < (b : ℤ))

/-- `poly_reduce` (lines 162-183).  Asserts the input degree is `DEG`, then for
each coefficient calls `range.div_mod(_, input[i], Q, num_bits)` keeping the
remainder witness `input[i] % Q`; asserts the output degree.  The returned
`Bool` is `true` iff every emitted `div_mod` constraint holds on the honest
witness values. -/
def poly_reduce (DEG Q : ℕ) (input : List ℤ) (numBits : ℕ) :
    Option (List ℤ × Bool) :=
  obind (checkedSub input.length 1) fun dDeg =>
  obind (assertC (dDeg = DEG)) fun _ =>
  let rems := (List.range (DEG + 1)).map (fun i => input.getD i 0 % (Q : ℤ))
  let ok := (List.range (DEG + 1)).all (fun i => divModOK (input.getD i 0) Q numBits)
  obind (checkedSub rems.length 1) fun rDeg =>
  obind (assertC (rDeg = DEG)) fun _ =>
  some (rems, ok)

/-- Modelled from the spec (§6): `vec_assigned_to_vec_u64` lives in
`src/chips/utils.rs`, which is not among the provided sources.  The spec
describes it as the plain-value extraction `extract(CircuitValue) -> u64`
applied to each coefficient; on the nonnegative values handled by the chip it
is the identity embedding, modelled by `Int.toNat`. -/
def vec_assigned_to_vec_u64 (l : List ℤ) : List ℕ :=
  l.map Int.toNat

/-- Modelled from the spec (§6, §8): `div_euclid` lives in
`src/chips/utils.rs`, which is not among the provided sources.  Per §6 it is
schoolbook polynomial long division of the extracted `u64` coefficient vectors
(descending order, monic cyclotomic divisor, so each quotient coefficient is
the current leading working coefficient), and per §8's negative-adjustment
scenario the remainder coefficients are normalized into `[0, Q-1]` by adding
`Q` whenever the plain subtraction went negative (i.e. they are reduced mod
`Q`), which is also why the Rust function takes `Q` as a const parameter.
The quotient has `DEG_DVD - DEG_DVS + 1` coefficients and the remainder is the
remaining low-degree part of the working vector (degree `DEG_DVS - 1`).
This is one long-division step: take the current leading working coefficient
as the next quotient coefficient and subtract its multiple of the (shifted)
divisor from the working vector. -/
def divEuclidStep (dz : List ℤ) (st : List ℤ × List ℤ) (i : ℕ) : List ℤ × List ℤ :=
  let work := st.1
  let qi := work.getD i 0
  ((List.range work.length).map (fun k =>
      if i ≤ k ∧ k < i + dz.length then work.getD k 0 - qi * dz.getD (k - i) 0
      else work.getD k 0),
    st.2 ++ [qi])

/-- Modelled from the spec (§6, §8): the long-division oracle, iterating
`divEuclidStep` once per quotient coefficient; see the comment there. -/
def div_euclid (DEG_DVD DEG_DVS Q : ℕ) (dividend divisor : List ℕ) :
    List ℕ × List ℕ :=
  let n := DEG_DVD - DEG_DVS + 1
  let dz : List ℤ := divisor.map (fun x : ℕ => (x : ℤ))
  let res := (List.range n).foldl (divEuclidStep dz) (dividend.map (fun x : ℕ => (x : ℤ)), [])
  (res.2.map Int.toNat, (res.1.drop n).map (fun v => (v % (Q : ℤ)).toNat))

/-- The indices `i` of the quotient for which `poly_divide_by_cyclo` emits
`range.check_less_than_safe(ctx, quotient[i], Q)` — the loop at lines 279-281:
`for i in 0..(DEG_DVD - DEG_DVS + 1)`. -/
def quotientRangeCheckedIndices (DEG_DVD DEG_DVS : ℕ) : List ℕ :=
  List.range (DEG_DVD - DEG_DVS + 1)

/-- The indices `i` of the (padded, descending-order, degree `DEG_DVD`)
remainder for which `poly_divide_by_cyclo` emits
`range.check_less_than_safe(ctx, remainder[i], Q)` — the loop at lines
291-293: `for i in 0..DEG_DVS`. -/
def remainderRangeCheckedIndices (DEG_DVS : ℕ) : List ℕ :=
  List.range DEG_DVS

/-- The remainder witness values loaded by `poly_divide_by_cyclo` (lines
262-266) from an oracle output `r`, after the two padding loops of lines
233-250: `r` is first padded at the low-degree end (pushed zeros) up to length
`DEG_DVS`, then padded at the leading end (zeros inserted at position 0) up to
length `DEG_DVD + 1`, and each entry is embedded into the field. -/
def padRemainder (DEG_DVD DEG_DVS : ℕ) (r : List ℕ) : List ℤ :=
  (List.range (DEG_DVD + 1)).map (fun i =>
    ((List.replicate (DEG_DVD + 1 -
        (r ++ List.replicate (DEG_DVS - r.length) 0).length) 0 ++
      (r ++ List.replicate (DEG_DVS - r.length) 0)).getD i 0 : ℤ))

/-- The quotient witness values loaded by `poly_divide_by_cyclo` (lines
256-260) from an oracle output `q`. -/
def loadedQuotient (DEG_DVD DEG_DVS : ℕ) (q : List ℕ) : List ℤ :=
  (List.range (DEG_DVD - DEG_DVS + 1)).map (fun i => (q.getD i 0 : ℤ))

/-- Coefficient `i` of `quotient * divisor + remainder` as reconstructed
inside `poly_divide_by_cyclo` (steps 6 of the spec): the `poly_mul_diff_deg`
convolution coefficient of the loaded quotient and the divisor, plus the
padded remainder coefficient. -/
def reconSum (DEG_DVD DEG_DVS : ℕ) (divisor : List ℤ) (q r : List ℕ) (i : ℕ) : ℤ :=
  diffCoeff (loadedQuotient DEG_DVD DEG_DVS q) divisor (DEG_DVD - DEG_DVS) DEG_DVS i +
    (padRemainder DEG_DVD DEG_DVS r).getD i 0

/-- The `num_bits` computed at lines 350-354:
the binary length of `(Q-1) * (DEG_DVD - DEG_DVS + 1) + (Q-1)`. -/
def divideNumBits (DEG_DVD DEG_DVS Q : ℕ) : ℕ :=
  rustBits ((Q - 1) * (DEG_DVD - DEG_DVS + 1) + (Q - 1))

/-- The body of `poly_divide_by_cyclo` (lines 198-369) after the external
long-division oracle call, with the oracle output `(quotientU64,
remainderU64)` passed as arguments (the function itself, below, plugs in
`div_euclid`; claims about corrupted oracle output instantiate these
arguments directly).  Returns the loaded remainder witness values together
with the conjunction of all emitted range / `div_mod` / equality constraints
evaluated on the honestly assigned witness values. -/
def divide_with_oracle (DEG_DVD DEG_DVS Q : ℕ) (dividend divisor : List ℤ)
    (quotientU64 remainderU64 : List ℕ) : Option (List ℤ × Bool) :=
  -- assert_eq!(dividend.len() - 1, DEG_DVD); assert_eq!(divisor.len() - 1, DEG_DVS)
  obind (checkedSub dividend.length 1) fun dvdDeg =>
  obind (assertC (dvdDeg = DEG_DVD)) fun _ =>
  obind (checkedSub divisor.length 1) fun dvsDeg =>
  obind (assertC (dvsDeg = DEG_DVS)) fun _ =>
  -- assert_eq!(dividend.len() - 1, (2 * DEG_DVS) - 2)
  obind (checkedSub (2 * DEG_DVS) 2) fun t =>
  obind (assertC (dvdDeg = t)) fun _ =>
  -- assert!(DEG_DVS < DEG_DVD)
  obind (assertC (DEG_DVS < DEG_DVD)) fun _ =>
  -- assert_eq!(quotient_to_u64.len() - 1, DEG_DVD - DEG_DVS)
  obind (checkedSub quotientU64.length 1) fun qDeg =>
  obind (assertC (qDeg = DEG_DVD - DEG_DVS)) fun _ =>
  -- assert!(remainder_to_u64.len() - 1 < DEG_DVS)
  obind (checkedSub remainderU64.length 1) fun rDeg =>
  obind (assertC (rDeg < DEG_DVS)) fun _ =>
  -- pad with 0s at the low end up to degree DEG_DVS - 1
  let rem1 : List ℕ := remainderU64 ++ List.replicate (DEG_DVS - remainderU64.length) 0
  obind (checkedSub rem1.length 1) fun r1Deg =>
  obind (assertC (r1Deg = DEG_DVS - 1)) fun _ =>
  -- pad with 0s at the leading end up to degree DEG_DVD
  let rem2 : List ℕ := List.replicate (DEG_DVD + 1 - rem1.length) 0 ++ rem1
  obind (checkedSub rem2.length 1) fun r2Deg =>
  obind (assertC (r2Deg = DEG_DVD)) fun _ =>
  -- load_witness(F::from(...)) for each quotient / remainder coefficient
  let quotient : List ℤ :=
    (List.range (DEG_DVD - DEG_DVS + 1)).map (fun i => (quotientU64.getD i 0 : ℤ))
  let remainder : List ℤ :=
    (List.range (DEG_DVD + 1)).map (fun i => (rem2.getD i 0 : ℤ))
  obind (checkedSub quotient.length 1) fun qLDeg =>
  obind (assertC (qLDeg = DEG_DVD - DEG_DVS)) fun _ =>
  obind (checkedSub remainder.length 1) fun rLDeg =>
  obind (assertC (rLDeg = DEG_DVD)) fun _ =>
  -- range.check_less_than_safe on the quotient / remainder witnesses
  let qOK := (quotientRangeCheckedIndices DEG_DVD DEG_DVS).all
    (fun i => ltCheck (quotient.getD i 0) Q)
  let rOK := (remainderRangeCheckedIndices DEG_DVS).all
    (fun i => ltCheck (remainder.getD i 0) Q)
  -- prod = poly_mul_diff_deg(quotient, divisor)
  obind (poly_mul_diff_deg quotient divisor) fun prod =>
  obind (checkedSub prod.length 1) fun pDeg =>
  obind (assertC (pDeg = DEG_DVD)) fun _ =>
  -- sum = poly_add::<DEG_DVD>(prod, remainder)
  obind (poly_add DEG_DVD prod remainder) fun sum =>
  obind (checkedSub sum.length 1) fun sDeg =>
  obind (assertC (sDeg = DEG_DVD)) fun _ =>
  -- num_bits of (Q-1)*(DEG_DVD - DEG_DVS + 1) + (Q-1)
  obind (checkedSub Q 1) fun qm1 =>
  let numBits := rustBits (qm1 * (DEG_DVD - DEG_DVS + 1) + qm1)
  -- sum_mod = poly_reduce::<DEG_DVD, Q>(sum, num_bits)
  obind (poly_reduce DEG_DVD Q sum numBits) fun sm =>
  obind (checkedSub sm.1.length 1) fun smDeg =>
  obind (assertC (smDeg = DEG_DVD)) fun _ =>
  -- is_equal(sum_mod[i], dividend[i]) + assert_is_const(_, 1) for each i
  let eqOK := (List.range (DEG_DVD + 1)).all
    (fun i => decide (sm.1.getD i 0 = dividend.getD i 0))
  some (remainder, qOK && rOK && sm.2 && eqOK)

/-- `poly_divide_by_cyclo` (lines 198-369): the full chip, extracting the
plain `u64` coefficient vectors and running the external long-division oracle
`div_euclid` to obtain the quotient and remainder fed to
`divide_with_oracle`. -/
def poly_divide_by_cyclo (DEG_DVD DEG_DVS Q : ℕ) (dividend divisor : List ℤ) :
    Option (List ℤ × Bool) :=
  let dividendU64 := vec_assigned_to_vec_u64 dividend
  let divisorU64 := vec_assigned_to_vec_u64 divisor
  let qr := div_euclid DEG_DVD DEG_DVS Q dividendU64 divisorU64
  divide_with_oracle DEG_DVD DEG_DVS Q dividend divisor qr.1 qr.2

/-- Discrete convolution coefficient, following the wording of the spec
(§4.3/§4.4): `c[i] = Σ a[j]·b[i-j]` over all `j` with both indices in
range. -/
def convCoeff (a b : List ℤ) (i : ℕ) : ℤ :=
  (((List.range (i + 1)).filter
      (fun j => decide (j < a.length ∧ i - j < b.length))).map
    (fun j => a.getD j 0 * b.getD (i - j) 0)).sum

/-- The remainder indices that the claim (spec §4.6 step 5) says receive a
less-than-`Q` bound: the last `DEG_DVS` entries of the descending-order,
degree-`DEG_DVD` padded remainder. -/
def specRemainderCheckedIndices (DEG_DVD DEG_DVS : ℕ) : List ℕ :=
  List.range' (DEG_DVD + 1 - DEG_DVS) DEG_DVS

/-!
Constraint-level view of the two multiplication chips.

The chips above are modelled by the honest witness values they assign.  To
reason about other satisfying assignments of the constraint system they emit
(claim C9 of the spec review), the two multiplication chips are modelled a
second time at the level of the circuit session: variables are numbered in
creation order, `vals` records the value assigned to each variable during
construction, and `cs` records the emitted gate constraints, which refer to
variables by number.  `load_witness` introduces a variable with NO constraint;
its assigned value is taken from an arbitrary function `seed` (the honest run
of the Rust code is `seed = fun _ => 0`, i.e. `F::zero()`), reflecting that a
prover may assign such a variable freely.
-/

/-- A constraint emitted by `gate.add` / `gate.mul` (spec §6): the output
variable `z` must equal the sum / product of the operand variables. -/
inductive MulConstr : Type
  | cadd (x y z : ℕ)
  | cmul (x y z : ℕ)

/-- The circuit session: honest values of the variables in creation order,
and the emitted gate constraints. -/
structure GCtx : Type where
  vals : List ℤ
  cs : List MulConstr

/-- Satisfaction of one gate constraint by an assignment `σ` of values to
variables. -/
def holdsC (σ : ℕ → ℤ) : MulConstr → Prop
  | .cadd x y z => σ z = σ x + σ y
  | .cmul x y z => σ z = σ x * σ y

/-- `ctx.load_witness(v)`: a fresh variable carrying value `v` and no
constraint. -/
def gwitness (g : GCtx) (v : ℤ) : GCtx × ℕ :=
  (⟨g.vals ++ [v], g.cs⟩, g.vals.length)

/-- `gate.mul(ctx, x, y)`: a fresh variable assigned and constrained to the
product of the operands. -/
def gmul (g : GCtx) (x y : ℕ) : GCtx × ℕ :=
  (⟨g.vals ++ [g.vals.getD x 0 * g.vals.getD y 0],
    g.cs ++ [.cmul x y g.vals.length]⟩, g.vals.length)

/-- `gate.add(ctx, x, y)`: a fresh variable assigned and constrained to the
sum of the operands. -/
def gadd (g : GCtx) (x y : ℕ) : GCtx × ℕ :=
  (⟨g.vals ++ [g.vals.getD x 0 + g.vals.getD y 0],
    g.cs ++ [.cadd x y g.vals.length]⟩, g.vals.length)

/-- The `coefficient_accumaltor` of one output coefficient: one `gate.mul`
per listed pair of operand variables (lines 60-72 resp. 107-115). -/
def gprods (g : GCtx) (ps : List (ℕ × ℕ)) : GCtx × List ℕ :=
  match ps with
  | [] => (g, [])
  | (x, y) :: rest =>
    let p := gmul g x y
    let q := gprods p.1 rest
    (q.1, p.2 :: q.2)

/-- The fold of the accumulated products onto the accumulator via
`gate.add` (lines 74-76 resp. 117-119). -/
def gaccum (g : GCtx) (acc : ℕ) (ps : List ℕ) : GCtx × ℕ :=
  match ps with
  | [] => (g, acc)
  | p :: rest =>
    let u := gadd g acc p
    gaccum u.1 u.2 rest

/-- One iteration of the outer coefficient loop of either multiplication
chip: emit the product gates, load the zero-seed witness
(`ctx.load_witness(F::zero())`, whose assigned value here is prover-chosen),
and fold the products onto it. -/
def coeffStep (g : GCtx) (pairs : List (ℕ × ℕ)) (seedVal : ℤ) : GCtx × ℕ :=
  let p := gprods g pairs
  let w := gwitness p.1 seedVal
  gaccum w.1 w.2 p.2

/-- The operand-variable pairs multiplied for output coefficient `i` of
`poly_mul_equal_deg` (lines 60-72): variable `j` is `a[j]`, variable
`la + k` is `b[k]` where `la = a.len()`. -/
def mulEqualPairs (DEG la : ℕ) (i : ℕ) : List (ℕ × ℕ) :=
  if i < DEG + 1 then (List.range (i + 1)).map (fun j => (j, la + (i - j)))
  else (List.range' (i - DEG) (DEG + 1 - (i - DEG))).map (fun j => (j, la + (i - j)))

/-- The operand-variable pairs multiplied for output coefficient `i` of
`poly_mul_diff_deg` (lines 107-115). -/
def mulDiffPairs (aDeg bDeg la : ℕ) (i : ℕ) : List (ℕ × ℕ) :=
  (List.range (i + 1)).filterMap (fun j =>
    if j ≤ aDeg ∧ i - j ≤ bDeg then some (j, la + (i - j)) else none)

/-- The outer coefficient loop: `count` iterations of `coeffStep`, starting
from the session holding the input coefficients `a ++ b` as variables
`0, …, la + lb - 1`; returns the final session and the list of output
coefficient variables. -/
def mulTraceAux (a b : List ℤ) (pairsOf : ℕ → List (ℕ × ℕ)) (seed : ℕ → ℤ) :
    ℕ → GCtx × List ℕ
  | 0 => (⟨a ++ b, []⟩, [])
  | n + 1 =>
    let s := mulTraceAux a b pairsOf seed n
    let c := coeffStep s.1 (pairsOf n) (seed n)
    (c.1, s.2 ++ [c.2])

/-- Constraint-level `poly_mul_equal_deg` (lines 45-85): same shape
assertions as the witness-value model, then the traced coefficient loop. -/
def poly_mul_equal_deg_trace (DEG : ℕ) (a b : List ℤ) (seed : ℕ → ℤ) :
    Option (GCtx × List ℕ) :=
  obind (checkedSub a.length 1) fun aDeg =>
  obind (checkedSub b.length 1) fun bDeg =>
  obind (assertC (aDeg = bDeg)) fun _ =>
  obind (assertC (aDeg = DEG)) fun _ =>
  some (mulTraceAux a b (mulEqualPairs DEG a.length) seed (2 * DEG + 1))

/-- Constraint-level `poly_mul_diff_deg` (lines 92-128): no shape assertion,
only the two degree computations, then the traced coefficient loop. -/
def poly_mul_diff_deg_trace (a b : List ℤ) (seed : ℕ → ℤ) :
    Option (GCtx × List ℕ) :=
  obind (checkedSub a.length 1) fun aDeg =>
  obind (checkedSub b.length 1) fun bDeg =>
  some (mulTraceAux a b (mulDiffPairs aDeg bDeg a.length) seed (aDeg + bDeg + 1))

/-- All variables referenced by a gate constraint are below `n` (i.e. the
constraint only mentions variables already allocated). -/
def cVars (c : MulConstr) (n : ℕ) : Prop :=
  match c with
  | .cadd x y z => x < n ∧ y < n ∧ z < n
  | .cmul x y z => x < n ∧ y < n ∧ z < n

/-- Satisfaction of a gate constraint by the assignment reading values off a
value list. -/
def holdsOn (vals : List ℤ) (c : MulConstr) : Prop :=
  holdsC (fun j => vals.getD j 0) c

/-- Invariant of the traced session: every emitted constraint only mentions
allocated variables and is satisfied by the values assigned during
construction. -/
def WFCtx (g : GCtx) : Prop :=
  ∀ c ∈ g.cs, cVars c g.vals.length ∧ holdsOn g.vals c

/-!
Basic computation lemmas for the abortable-construction combinators.
-/

theorem obind_some {α β : Type} (a : α) (f : α → Option β) :
    obind (some a) f = f a := rfl

theorem obind_none {α β : Type} (f : α → Option β) :
    obind none f = none := rfl

theorem assertC_pos {c : Prop} [Decidable c] (h : c) : assertC c = some () := by
  simp [assertC, h]

theorem assertC_neg {c : Prop} [Decidable c] (h : ¬c) : assertC c = none := by
  simp [assertC, h]

theorem checkedSub_some {a b : ℕ} (h : b ≤ a) : checkedSub a b = some (a - b) := by
  simp [checkedSub, h]

theorem checkedSub_none {a b : ℕ} (h : a < b) : checkedSub a b = none := by
  simp [checkedSub]
  omega

theorem getD_map_range {α : Type} (f : ℕ → α) (d : α) {n i : ℕ} (h : i < n) :
    ((List.range n).map f).getD i d = f i := by
  rw [List.getD_eq_getElem _ _ (by simpa using h)]
  simp

theorem map_range_getD_self {α : Type} (l : List α) (d : α) :
    (List.range l.length).map (fun i => l.getD i d) = l := by
  apply List.ext_getElem
  · simp
  · intro i h1 h2
    simp only [List.getElem_map, List.getElem_range]
    rw [List.getD_eq_getElem _ _ h2]

theorem foldl_add_eq_sum (l : List ℤ) (z : ℤ) : l.foldl (· + ·) z = z + l.sum := by
  induction l generalizing z with
  | nil => simp
  | cons x xs ih => simp [ih, List.sum_cons]; ring

/-!
Computation lemmas for the individual chips.
-/

theorem poly_reduce_eq (DEG Q : ℕ) (input : List ℤ) (numBits : ℕ)
    (h : input.length = DEG + 1) :
    poly_reduce DEG Q input numBits =
      some ((List.range (DEG + 1)).map (fun i => input.getD i 0 % (Q : ℤ)),
        (List.range (DEG + 1)).all (fun i => divModOK (input.getD i 0) Q numBits)) := by
  have hr : ((List.range (DEG + 1)).map (fun i => input.getD i 0 % (Q : ℤ))).length
      = DEG + 1 := by simp
  unfold poly_reduce
  dsimp only
  rw [checkedSub_some (by omega), obind_some, assertC_pos (by omega), obind_some,
    checkedSub_some (by omega), obind_some, assertC_pos (by omega), obind_some]

theorem poly_reduce_none (DEG Q : ℕ) (input : List ℤ) (numBits : ℕ)
    (h : input.length ≠ DEG + 1) :
    poly_reduce DEG Q input numBits = none := by
  unfold poly_reduce
  dsimp only
  by_cases h0 : input.length = 0
  · rw [checkedSub_none (by omega), obind_none]
  · rw [checkedSub_some (by omega), obind_some, assertC_neg (by omega), obind_none]

theorem poly_add_eq (DEG : ℕ) (a b : List ℤ)
    (ha : a.length = DEG + 1) (hb : b.length = DEG + 1) :
    poly_add DEG a b =
      some ((List.range (DEG + 1)).map (fun i => a.getD i 0 + b.getD i 0)) := by
  have hc : ((List.range (DEG + 1)).map (fun i => a.getD i 0 + b.getD i 0)).length
      = DEG + 1 := by simp
  unfold poly_add
  dsimp only
  rw [checkedSub_some (by omega), obind_some, checkedSub_some (by omega), obind_some,
    assertC_pos (by omega), obind_some, assertC_pos (by omega), obind_some,
    checkedSub_some (by omega), obind_some, assertC_pos (by omega), obind_some]

theorem poly_mul_diff_deg_eq (a b : List ℤ) (ha : a ≠ []) (hb : b ≠ []) :
    poly_mul_diff_deg a b =
      some ((List.range (a.length - 1 + (b.length - 1) + 1)).map
        (fun i => diffCoeff a b (a.length - 1) (b.length - 1) i)) := by
  have ha1 : 1 ≤ a.length := List.length_pos.mpr ha
  have hb1 : 1 ≤ b.length := List.length_pos.mpr hb
  have hc : ((List.range (a.length - 1 + (b.length - 1) + 1)).map
      (fun i => diffCoeff a b (a.length - 1) (b.length - 1) i)).length
      = a.length - 1 + (b.length - 1) + 1 := by simp
  unfold poly_mul_diff_deg
  dsimp only
  rw [checkedSub_some (by omega), obind_some, checkedSub_some (by omega), obind_some,
    checkedSub_some (by omega), obind_some, assertC_pos (by omega), obind_some]

theorem poly_mul_diff_deg_none (a b : List ℤ) (h : a = [] ∨ b = []) :
    poly_mul_diff_deg a b = none := by
  unfold poly_mul_diff_deg
  dsimp only
  rcases h with h | h
  · rw [checkedSub_none (by simp [h]), obind_none]
  · by_cases h0 : a.length = 0
    · rw [checkedSub_none (by omega), obind_none]
    · rw [checkedSub_some (by omega), obind_some, checkedSub_none (by simp [h]), obind_none]

theorem map_range_add_eq_zipWith (a b : List ℤ) (h : a.length = b.length) :
    (List.range a.length).map (fun i => a.getD i 0 + b.getD i 0) =
      List.zipWith (· + ·) a b := by
  apply List.ext_getElem
  · simp [h]
  · intro i h1 h2
    simp only [List.getElem_map, List.getElem_range, List.getElem_zipWith]
    rw [List.getD_eq_getElem a 0 (by simpa using h1),
      List.getD_eq_getElem b 0 (by simp at h1; omega)]

/-- C7: `poly_add` returns the coefficient-wise sum (a vector of length
`DEG + 1` with `c[i] = a[i] + b[i]` for every index) whenever both inputs
have length `DEG + 1`, and aborts construction via an assertion (or the
`len() - 1` underflow panic on an empty input) for every other pair of
lengths. -/
theorem C7_poly_add_spec (DEG : ℕ) (a b : List ℤ) :
    poly_add DEG a b =
      if a.length = DEG + 1 ∧ b.length = DEG + 1 then
        some (List.zipWith (· + ·) a b)
      else none := by
  by_cases h : a.length = DEG + 1 ∧ b.length = DEG + 1
  · obtain ⟨ha, hb⟩ := h
    rw [if_pos ⟨ha, hb⟩, poly_add_eq DEG a b ha hb, ← ha]
    rw [map_range_add_eq_zipWith a b (by omega)]
  · rw [if_neg h]
    unfold poly_add
    dsimp only
    by_cases ha0 : a.length = 0
    · rw [checkedSub_none (by omega), obind_none]
    · by_cases hb0 : b.length = 0
      · rw [checkedSub_some (by omega), obind_some, checkedSub_none (by omega), obind_none]
      · rw [checkedSub_some (by omega), obind_some, checkedSub_some (by omega), obind_some]
        push_neg at h
        by_cases he : a.length - 1 = b.length - 1
        · rw [assertC_pos he, obind_some, assertC_neg (by omega), obind_none]
        · rw [assertC_neg he, obind_none]

/-- C6: reduction is idempotent on the returned coefficient vector: feeding
the output of `poly_reduce` back into `poly_reduce` (same `Q`, same bit
bound) yields the same coefficient vector, for every input. -/
theorem C6_reduce_idempotent (DEG Q : ℕ) (input : List ℤ) (numBits : ℕ) :
    ((poly_reduce DEG Q input numBits).bind fun p =>
        poly_reduce DEG Q p.1 numBits).map Prod.fst =
      (poly_reduce DEG Q input numBits).map Prod.fst := by
  by_cases h : input.length = DEG + 1
  · rw [poly_reduce_eq DEG Q input numBits h]
    show (poly_reduce DEG Q ((List.range (DEG + 1)).map
        (fun i => input.getD i 0 % (Q : ℤ))) numBits).map Prod.fst = _
    rw [poly_reduce_eq DEG Q _ numBits (by simp)]
    simp only [Option.map_some']
    congr 1
    apply List.map_congr_left
    intro i hi
    rw [getD_map_range _ _ (List.mem_range.mp hi)]
    exact Int.emod_emod_of_dvd _ dvd_rfl
  · rw [poly_reduce_none DEG Q input numBits h]
    simp

/-- C10: `poly_mul_diff_deg` performs no shape or degree assertion: for all
non-empty inputs it completes and returns `len(a) + len(b) - 1` coefficients,
while an empty input aborts through the `len() - 1` underflow panic. -/
theorem C10_mul_diff_no_shape_assert (a b : List ℤ) :
    (a ≠ [] → b ≠ [] → ∃ c, poly_mul_diff_deg a b = some c ∧
      c.length = a.length + b.length - 1) ∧
    ((a = [] ∨ b = []) → poly_mul_diff_deg a b = none) := by
  constructor
  · intro ha hb
    refine ⟨_, poly_mul_diff_deg_eq a b ha hb, ?_⟩
    have ha1 : 1 ≤ a.length := List.length_pos.mpr ha
    have hb1 : 1 ≤ b.length := List.length_pos.mpr hb
    simp only [List.length_map, List.length_range]
    omega
  · exact poly_mul_diff_deg_none a b

/-- Witness for C10 at concrete inputs. -/
theorem C10_mul_diff_no_shape_assert_witness :
    (∃ c, poly_mul_diff_deg [1, 2] [3] = some c ∧ c.length = 2) ∧
      poly_mul_diff_deg ([] : List ℤ) [3] = none := by
  refine ⟨?_, (C10_mul_diff_no_shape_assert [] [3]).2 (Or.inl rfl)⟩
  exact (C10_mul_diff_no_shape_assert [1, 2] [3]).1 (by decide) (by decide)

/-- C4: for an input of length `DEG + 1` whose coefficients fit in `numBits`
bits, `poly_reduce` returns a vector of length `DEG + 1` whose `i`-th entry is
`input[i] mod Q`, lying in `[0, Q)`; moreover all emitted `div_mod`
constraints hold on the honest witness values. -/
theorem C4_poly_reduce_spec (DEG Q numBits : ℕ) (input : List ℤ)
    (hlen : input.length = DEG + 1) (hQ : 1 ≤ Q)
    (hfit : ∀ v ∈ input, 0 ≤ v ∧ v < 2 ^ numBits) :
    ∃ out, poly_reduce DEG Q input numBits = some (out, true) ∧
      out.length = DEG + 1 ∧
      ∀ i, i ≤ DEG → out.getD i 0 = input.getD i 0 % (Q : ℤ) ∧
        0 ≤ out.getD i 0 ∧ out.getD i 0 < (Q : ℤ) := by
  have hQz : (0 : ℤ) < (Q : ℤ) := by exact_mod_cast hQ
  have hcoef : ∀ i, i ≤ DEG → 0 ≤ input.getD i 0 ∧ input.getD i 0 < 2 ^ numBits := by
    intro i hi
    have hm : input.getD i 0 ∈ input := by
      rw [List.getD_eq_getElem input 0 (by omega)]
      exact List.getElem_mem _
    exact hfit _ hm
  refine ⟨(List.range (DEG + 1)).map (fun i => input.getD i 0 % (Q : ℤ)), ?_, by simp, ?_⟩
  · rw [poly_reduce_eq DEG Q input numBits hlen]
    congr 2
    rw [List.all_eq_true]
    intro i hi
    have hi2 := List.mem_range.mp hi
    obtain ⟨h0, h1⟩ := hcoef i (by omega)
    set x := input.getD i 0 with hx
    have e1 : 0 ≤ x / (Q : ℤ) := Int.ediv_nonneg h0 (by positivity)
    have e2 : x / (Q : ℤ) ≤ x := Int.ediv_le_self _ h0
    have e3 : 0 ≤ x % (Q : ℤ) := Int.emod_nonneg x (by omega)
    have e4 : x % (Q : ℤ) < (Q : ℤ) := Int.emod_lt_of_pos x hQz
    have e5 : x % (Q : ℤ) ≤ x := by
      have hd : x % (Q : ℤ) = x - (Q : ℤ) * (x / (Q : ℤ)) := Int.emod_def x (Q : ℤ)
      have hp : 0 ≤ (Q : ℤ) * (x / (Q : ℤ)) := mul_nonneg (by positivity) e1
      omega
    simp only [divModOK, decide_eq_true_eq]
    exact ⟨e1, by omega, e3, by omega, e4⟩
  · intro i hi
    rw [getD_map_range _ _ (show i < DEG + 1 by omega)]
    obtain ⟨h0, _⟩ := hcoef i hi
    exact ⟨rfl, Int.emod_nonneg _ (by omega), Int.emod_lt_of_pos _ hQz⟩

theorem getD_replicate_self {α : Type} {n : ℕ} (x d : α) {i : ℕ} (h : i < n) :
    (List.replicate n x).getD i d = x := by
  rw [List.getD_eq_getElem _ _ (by simpa using h)]
  simp

theorem filterMap_if_eq_map_filter {α : Type} (l : List ℕ) (p : ℕ → Prop)
    [DecidablePred p] (f : ℕ → α) :
    l.filterMap (fun j => if p j then some (f j) else none) =
      (l.filter (fun j => decide (p j))).map f := by
  induction l with
  | nil => rfl
  | cons x xs ih =>
    by_cases hx : p x
    · simp [List.filterMap_cons, List.filter_cons, hx, ih]
    · simp [List.filterMap_cons, List.filter_cons, hx, ih]

theorem diffCoeff_eq_sum (a b : List ℤ) (aDeg bDeg i : ℕ) :
    diffCoeff a b aDeg bDeg i =
      (((List.range (i + 1)).filter (fun j => decide (j ≤ aDeg ∧ i - j ≤ bDeg))).map
        (fun j => a.getD j 0 * b.getD (i - j) 0)).sum := by
  rw [diffCoeff, filterMap_if_eq_map_filter, foldl_add_eq_sum, zero_add]

theorem diffCoeff_eq_convCoeff (a b : List ℤ) (i : ℕ) (ha : a ≠ []) (hb : b ≠ []) :
    diffCoeff a b (a.length - 1) (b.length - 1) i = convCoeff a b i := by
  have ha1 : 1 ≤ a.length := List.length_pos.mpr ha
  have hb1 : 1 ≤ b.length := List.length_pos.mpr hb
  rw [diffCoeff_eq_sum, convCoeff]
  congr 2
  apply List.filter_congr
  intro j hj
  have hj2 := List.mem_range.mp hj
  simp only [decide_eq_decide]
  omega

theorem eqCoeff_eq_convCoeff (DEG : ℕ) (a b : List ℤ) (i : ℕ)
    (ha : a.length = DEG + 1) (hb : b.length = DEG + 1) (hi : i ≤ 2 * DEG) :
    eqCoeff a b DEG i = convCoeff a b i := by
  rw [eqCoeff, convCoeff]
  by_cases hc : i < DEG + 1
  · rw [if_pos hc]
    have hall : (List.range (i + 1)).filter
        (fun j => decide (j < a.length ∧ i - j < b.length)) = List.range (i + 1) := by
      rw [List.filter_eq_self]
      intro j hj
      have hj2 := List.mem_range.mp hj
      simp only [decide_eq_true_eq]
      omega
    rw [hall, foldl_add_eq_sum, zero_add]
  · rw [if_neg hc]
    have e1 : List.range' 0 (i - DEG) ++ List.range' (i - DEG) (DEG + 1 - (i - DEG)) =
        List.range' 0 (DEG + 1) := by
      have h := List.range'_append 0 (i - DEG) (DEG + 1 - (i - DEG)) 1
      simp only [one_mul, Nat.zero_add] at h
      rw [h, (by omega : DEG + 1 - (i - DEG) + (i - DEG) = DEG + 1)]
    have e2 : List.range' 0 (DEG + 1) ++ List.range' (DEG + 1) (i - DEG) =
        List.range' 0 (i + 1) := by
      have h := List.range'_append 0 (DEG + 1) (i - DEG) 1
      simp only [one_mul, Nat.zero_add] at h
      rw [h, (by omega : i - DEG + (DEG + 1) = i + 1)]
    have hsplit : List.range (i + 1) =
        (List.range' 0 (i - DEG) ++ List.range' (i - DEG) (DEG + 1 - (i - DEG))) ++
          List.range' (DEG + 1) (i - DEG) := by
      rw [e1, e2, List.range_eq_range']
    rw [hsplit, List.filter_append, List.filter_append]
    have f1 : (List.range' 0 (i - DEG)).filter
        (fun j => decide (j < a.length ∧ i - j < b.length)) = [] := by
      rw [List.filter_eq_nil_iff]
      intro j hj
      have hj2 := List.mem_range'.mp hj
      obtain ⟨k, hk, rfl⟩ := hj2
      simp only [decide_eq_true_eq]
      omega
    have f2 : (List.range' (i - DEG) (DEG + 1 - (i - DEG))).filter
        (fun j => decide (j < a.length ∧ i - j < b.length)) =
        List.range' (i - DEG) (DEG + 1 - (i - DEG)) := by
      rw [List.filter_eq_self]
      intro j hj
      have hj2 := List.mem_range'.mp hj
      obtain ⟨k, hk, rfl⟩ := hj2
      simp only [decide_eq_true_eq]
      omega
    have f3 : (List.range' (DEG + 1) (i - DEG)).filter
        (fun j => decide (j < a.length ∧ i - j < b.length)) = [] := by
      rw [List.filter_eq_nil_iff]
      intro j hj
      have hj2 := List.mem_range'.mp hj
      obtain ⟨k, hk, rfl⟩ := hj2
      simp only [decide_eq_true_eq]
      omega
    rw [f1, f2, f3, List.nil_append, List.append_nil, foldl_add_eq_sum, zero_add]

theorem poly_mul_equal_deg_eq (DEG : ℕ) (a b : List ℤ)
    (ha : a.length = DEG + 1) (hb : b.length = DEG + 1) :
    poly_mul_equal_deg DEG a b =
      some ((List.range (2 * DEG + 1)).map (fun i => eqCoeff a b DEG i)) := by
  have hc : ((List.range (2 * DEG + 1)).map (fun i => eqCoeff a b DEG i)).length
      = 2 * DEG + 1 := by simp
  unfold poly_mul_equal_deg
  dsimp only
  rw [checkedSub_some (by omega), obind_some, checkedSub_some (by omega), obind_some,
    assertC_pos (by omega), obind_some, assertC_pos (by omega), obind_some,
    checkedSub_some (by omega), obind_some, assertC_pos (by omega), obind_some]

/-- C5: on equal-degree inputs (both of length `DEG + 1`), the optimized
`poly_mul_equal_deg` and the general `poly_mul_diff_deg` return identical
coefficient vectors — `2 * DEG + 1` coefficients forming the discrete
convolution of the inputs. -/
theorem C5_mul_agreement (DEG : ℕ) (a b : List ℤ)
    (ha : a.length = DEG + 1) (hb : b.length = DEG + 1) :
    poly_mul_equal_deg DEG a b = poly_mul_diff_deg a b ∧
    poly_mul_diff_deg a b =
      some ((List.range (2 * DEG + 1)).map (fun i => convCoeff a b i)) := by
  have hane : a ≠ [] := by
    intro h
    rw [h] at ha
    simp at ha
  have hbne : b ≠ [] := by
    intro h
    rw [h] at hb
    simp at hb
  have h2 : poly_mul_diff_deg a b =
      some ((List.range (2 * DEG + 1)).map (fun i => convCoeff a b i)) := by
    rw [poly_mul_diff_deg_eq a b hane hbne,
      (by omega : a.length - 1 + (b.length - 1) + 1 = 2 * DEG + 1)]
    congr 1
    apply List.map_congr_left
    intro i hi
    exact diffCoeff_eq_convCoeff a b i hane hbne
  refine ⟨?_, h2⟩
  rw [poly_mul_equal_deg_eq DEG a b ha hb, h2]
  congr 1
  apply List.map_congr_left
  intro i hi
  have hi2 := List.mem_range.mp hi
  exact eqCoeff_eq_convCoeff DEG a b i ha hb (by omega)

/-- Witness for C5 at `DEG = 1`, `a = [1, 2]`, `b = [3, 4]`. -/
theorem C5_mul_agreement_witness :
    ([(1 : ℤ), 2].length = 1 + 1) ∧ ([(3 : ℤ), 4].length = 1 + 1) ∧
      (poly_mul_equal_deg 1 [(1 : ℤ), 2] [(3 : ℤ), 4] =
          poly_mul_diff_deg [(1 : ℤ), 2] [(3 : ℤ), 4] ∧
        poly_mul_diff_deg [(1 : ℤ), 2] [(3 : ℤ), 4] =
          some ((List.range (2 * 1 + 1)).map
            (fun i => convCoeff [(1 : ℤ), 2] [(3 : ℤ), 4] i))) :=
  ⟨rfl, rfl, C5_mul_agreement 1 [1, 2] [3, 4] rfl rfl⟩

theorem divide_with_oracle_none_of_small (DEG_DVD DEG_DVS Q : ℕ)
    (dividend divisor : List ℤ) (q r : List ℕ) (h : DEG_DVS ≤ 2) :
    divide_with_oracle DEG_DVD DEG_DVS Q dividend divisor q r = none := by
  unfold divide_with_oracle
  dsimp only
  by_cases h1 : dividend.length = 0
  · rw [checkedSub_none (by omega), obind_none]
  · rw [checkedSub_some (by omega), obind_some]
    by_cases h2 : dividend.length - 1 = DEG_DVD
    case neg => rw [assertC_neg h2, obind_none]
    case pos =>
      rw [assertC_pos h2, obind_some]
      by_cases h3 : divisor.length = 0
      · rw [checkedSub_none (by omega), obind_none]
      · rw [checkedSub_some (by omega), obind_some]
        by_cases h4 : divisor.length - 1 = DEG_DVS
        case neg => rw [assertC_neg h4, obind_none]
        case pos =>
          rw [assertC_pos h4, obind_some]
          by_cases h5 : 2 * DEG_DVS < 2
          · rw [checkedSub_none h5, obind_none]
          · rw [checkedSub_some (by omega), obind_some]
            by_cases h6 : dividend.length - 1 = 2 * DEG_DVS - 2
            case neg => rw [assertC_neg h6, obind_none]
            case pos =>
              rw [assertC_pos h6, obind_some, assertC_neg (by omega), obind_none]

/-- C8: the shape assertions of `poly_divide_by_cyclo`
(`DEG_DVD == 2 * DEG_DVS - 2` and `DEG_DVS < DEG_DVD`) are jointly
unsatisfiable for `DEG_DVS ≤ 2`: for every such parameter choice and all
inputs, circuit construction aborts. -/
theorem C8_divide_small_degdvs_aborts (DEG_DVD DEG_DVS Q : ℕ)
    (dividend divisor : List ℤ) (h : DEG_DVS ≤ 2) :
    poly_divide_by_cyclo DEG_DVD DEG_DVS Q dividend divisor = none := by
  unfold poly_divide_by_cyclo
  dsimp only
  exact divide_with_oracle_none_of_small DEG_DVD DEG_DVS Q dividend divisor _ _ h

/-- Witness for C8 at `DEG_DVD = 2`, `DEG_DVS = 2`. -/
theorem C8_divide_small_degdvs_aborts_witness :
    2 ≤ 2 ∧ poly_divide_by_cyclo 2 2 11 [(1 : ℤ), 2, 3] [(1 : ℤ), 1, 1] = none :=
  ⟨le_refl 2, C8_divide_small_degdvs_aborts 2 2 11 [1, 2, 3] [1, 1, 1] (le_refl 2)⟩

theorem all_congr_of_mem {α : Type} {l : List α} {p q : α → Bool}
    (h : ∀ x ∈ l, p x = q x) : l.all p = l.all q := by
  induction l with
  | nil => rfl
  | cons x xs ih =>
    simp only [List.all_cons, h x (List.mem_cons_self x xs),
      ih (fun y hy => h y (List.mem_cons_of_mem x hy))]

theorem divEuclidStep_fst_length (dz : List ℤ) (st : List ℤ × List ℤ) (i : ℕ) :
    (divEuclidStep dz st i).1.length = st.1.length := by
  unfold divEuclidStep
  simp

theorem divEuclidStep_snd_length (dz : List ℤ) (st : List ℤ × List ℤ) (i : ℕ) :
    (divEuclidStep dz st i).2.length = st.2.length + 1 := by
  unfold divEuclidStep
  simp

theorem foldl_divEuclidStep_shape (dz : List ℤ) (w0 q0 : List ℤ) (n : ℕ) :
    ((List.range n).foldl (divEuclidStep dz) (w0, q0)).1.length = w0.length ∧
      ((List.range n).foldl (divEuclidStep dz) (w0, q0)).2.length = q0.length + n := by
  induction n with
  | zero => simp
  | succ m ih =>
    rw [List.range_succ, List.foldl_append, List.foldl_cons, List.foldl_nil,
      divEuclidStep_fst_length, divEuclidStep_snd_length, ih.1, ih.2]
    exact ⟨rfl, rfl⟩

theorem div_euclid_fst_length (DEG_DVD DEG_DVS Q : ℕ) (dividend divisor : List ℕ) :
    (div_euclid DEG_DVD DEG_DVS Q dividend divisor).1.length = DEG_DVD - DEG_DVS + 1 := by
  unfold div_euclid
  dsimp only
  rw [List.length_map,
    (foldl_divEuclidStep_shape (divisor.map (fun x : ℕ => (x : ℤ)))
      (dividend.map (fun x : ℕ => (x : ℤ))) [] (DEG_DVD - DEG_DVS + 1)).2]
  simp

theorem div_euclid_snd_length (DEG_DVD DEG_DVS Q : ℕ) (dividend divisor : List ℕ) :
    (div_euclid DEG_DVD DEG_DVS Q dividend divisor).2.length
      = dividend.length - (DEG_DVD - DEG_DVS + 1) := by
  unfold div_euclid
  dsimp only
  rw [List.length_map, List.length_drop,
    (foldl_divEuclidStep_shape (divisor.map (fun x : ℕ => (x : ℤ)))
      (dividend.map (fun x : ℕ => (x : ℤ))) [] (DEG_DVD - DEG_DVS + 1)).1,
    List.length_map]

theorem divide_with_oracle_eq (DEG_DVD DEG_DVS Q : ℕ) (dividend divisor : List ℤ)
    (q r : List ℕ)
    (hdvd : dividend.length = DEG_DVD + 1) (hdvs : divisor.length = DEG_DVS + 1)
    (hdd : DEG_DVD = 2 * DEG_DVS - 2) (hlt : DEG_DVS < DEG_DVD)
    (hq : q.length = DEG_DVD - DEG_DVS + 1)
    (hr1 : 1 ≤ r.length) (hr2 : r.length ≤ DEG_DVS) (hQ : 1 ≤ Q) :
    divide_with_oracle DEG_DVD DEG_DVS Q dividend divisor q r =
      some (padRemainder DEG_DVD DEG_DVS r,
        ((quotientRangeCheckedIndices DEG_DVD DEG_DVS).all
            (fun i => ltCheck ((loadedQuotient DEG_DVD DEG_DVS q).getD i 0) Q) &&
          (remainderRangeCheckedIndices DEG_DVS).all
            (fun i => ltCheck ((padRemainder DEG_DVD DEG_DVS r).getD i 0) Q) &&
          (List.range (DEG_DVD + 1)).all
            (fun i => divModOK (reconSum DEG_DVD DEG_DVS divisor q r i) Q
              (divideNumBits DEG_DVD DEG_DVS Q)) &&
          (List.range (DEG_DVD + 1)).all
            (fun i => decide (reconSum DEG_DVD DEG_DVS divisor q r i % (Q : ℤ) =
              dividend.getD i 0)))) := by
  have h3 : 3 ≤ DEG_DVS := by omega
  have hsle : DEG_DVS ≤ DEG_DVD := le_of_lt hlt
  unfold divide_with_oracle
  dsimp only
  rw [checkedSub_some (by omega), obind_some, assertC_pos (by omega), obind_some,
    checkedSub_some (by omega), obind_some, assertC_pos (by omega), obind_some,
    checkedSub_some (by omega), obind_some, assertC_pos (by omega), obind_some,
    assertC_pos hlt, obind_some,
    checkedSub_some (by omega), obind_some, assertC_pos (by omega), obind_some,
    checkedSub_some (by omega), obind_some, assertC_pos (by omega), obind_some,
    checkedSub_some
      (by simp only [List.length_append, List.length_replicate]; omega),
    obind_some,
    assertC_pos (by simp only [List.length_append, List.length_replicate]; omega),
    obind_some,
    checkedSub_some
      (by simp only [List.length_append, List.length_replicate]; omega),
    obind_some,
    assertC_pos (by simp only [List.length_append, List.length_replicate]; omega),
    obind_some,
    checkedSub_some (by simp), obind_some, assertC_pos (by simp), obind_some,
    checkedSub_some (by simp), obind_some, assertC_pos (by simp), obind_some,
    poly_mul_diff_deg_eq _ divisor
      (by apply List.length_pos.mp; simp)
      (by apply List.length_pos.mp; omega)]
  rw [show ((List.range (DEG_DVD - DEG_DVS + 1)).map
        (fun i => (q.getD i 0 : ℤ))).length - 1 = DEG_DVD - DEG_DVS by simp,
    show divisor.length - 1 = DEG_DVS by omega,
    show DEG_DVD - DEG_DVS + DEG_DVS + 1 = DEG_DVD + 1 by omega,
    obind_some,
    checkedSub_some (by simp), obind_some, assertC_pos (by simp), obind_some,
    poly_add_eq DEG_DVD _ _ (by simp) (by simp), obind_some,
    checkedSub_some (by simp), obind_some, assertC_pos (by simp), obind_some,
    checkedSub_some hQ, obind_some,
    poly_reduce_eq DEG_DVD Q _ _ (by simp), obind_some]
  dsimp only
  rw [checkedSub_some (by simp), obind_some, assertC_pos (by simp), obind_some]
  refine congrArg some (congrArg₂ Prod.mk rfl ?_)
  refine congrArg₂ (· && ·)
    (congrArg₂ (· && ·) (congrArg₂ (· && ·) rfl rfl) ?_) ?_
  · apply all_congr_of_mem
    intro i hi
    have hi2 := List.mem_range.mp hi
    rw [getD_map_range _ _ hi2, getD_map_range _ _ hi2, getD_map_range _ _ hi2]
    unfold reconSum loadedQuotient padRemainder divideNumBits
    rw [getD_map_range _ _ hi2]
  · apply all_congr_of_mem
    intro i hi
    have hi2 := List.mem_range.mp hi
    rw [getD_map_range _ _ hi2, getD_map_range _ _ hi2, getD_map_range _ _ hi2,
      getD_map_range _ _ hi2]
    unfold reconSum loadedQuotient padRemainder
    rw [getD_map_range _ _ hi2]
/-- C3 (amended): the degree/shape preconditions of `poly_divide_by_cyclo`
are the only build-time assertions; under them circuit construction completes
for every choice of coefficient values — in particular the documented value
preconditions (divisor coefficients 0/1, dividend coefficients in `[0, Q-1]`,
field-capacity bound on `Q`) are not checked and their violation does not
abort construction. -/
theorem C3_value_preconditions_unchecked (DEG_DVD DEG_DVS Q : ℕ)
    (dividend divisor : List ℤ)
    (hdvd : dividend.length = DEG_DVD + 1) (hdvs : divisor.length = DEG_DVS + 1)
    (hdd : DEG_DVD = 2 * DEG_DVS - 2) (hlt : DEG_DVS < DEG_DVD) (hQ : 1 ≤ Q) :
    (poly_divide_by_cyclo DEG_DVD DEG_DVS Q dividend divisor).isSome = true := by
  have h3 : 3 ≤ DEG_DVS := by omega
  have hdu : (vec_assigned_to_vec_u64 dividend).length = DEG_DVD + 1 := by
    simp [vec_assigned_to_vec_u64, hdvd]
  unfold poly_divide_by_cyclo
  dsimp only
  rw [divide_with_oracle_eq DEG_DVD DEG_DVS Q dividend divisor _ _ hdvd hdvs hdd hlt
    (by rw [div_euclid_fst_length])
    (by rw [div_euclid_snd_length, hdu]; omega)
    (by rw [div_euclid_snd_length, hdu]; omega) hQ]
  rfl

/-- Counterexample to C3 as stated: a dividend coefficient `12` violates the
precondition `dividend[i] ∈ [0, Q-1]` for `Q = 11`, yet circuit construction
completes (no assertion aborts); the violation is not checked at build
time. -/
theorem C3_counterexample :
    (poly_divide_by_cyclo 4 3 11 [(12 : ℤ), 2, 3, 4, 5] [(1 : ℤ), 0, 0, 1]).isSome
        = true ∧
      ¬(∀ v ∈ [(12 : ℤ), 2, 3, 4, 5], 0 ≤ v ∧ v ≤ 11 - 1) := by decide

/-- Witness for C3 (amended) at a shape-valid input. -/
theorem C3_value_preconditions_unchecked_witness :
    ([(9 : ℤ), 8, 7, 6, 5].length = 4 + 1) ∧ ([(1 : ℤ), 1, 0, 1].length = 3 + 1) ∧
      (4 = 2 * 3 - 2) ∧ (3 < 4) ∧ (1 ≤ 11) ∧
      (poly_divide_by_cyclo 4 3 11 [(9 : ℤ), 8, 7, 6, 5] [(1 : ℤ), 1, 0, 1]).isSome
        = true :=
  ⟨rfl, rfl, by decide, by decide, by decide,
    C3_value_preconditions_unchecked 4 3 11 [9, 8, 7, 6, 5] [1, 1, 0, 1]
      rfl rfl (by decide) (by decide) (by decide)⟩

/-- C1 (amended): with the range checks made explicit, the constraint system
of `poly_divide_by_cyclo` is satisfied by the honestly assigned witness
values if and only if `quotient * divisor + remainder` is congruent to the
dividend coefficient-wise MODULO `Q` (together with the emitted range and
bit-width checks on the oracle output) — not if and only if it equals the
dividend exactly over the integers. -/
theorem C1_divide_accepts_iff_mod (DEG_DVD DEG_DVS Q : ℕ)
    (dividend divisor : List ℤ) (q r : List ℕ)
    (hdvd : dividend.length = DEG_DVD + 1) (hdvs : divisor.length = DEG_DVS + 1)
    (hdd : DEG_DVD = 2 * DEG_DVS - 2) (hlt : DEG_DVS < DEG_DVD)
    (hq : q.length = DEG_DVD - DEG_DVS + 1)
    (hr1 : 1 ≤ r.length) (hr2 : r.length ≤ DEG_DVS) (hQ : 1 ≤ Q) :
    ∃ acc : Bool,
      divide_with_oracle DEG_DVD DEG_DVS Q dividend divisor q r =
        some (padRemainder DEG_DVD DEG_DVS r, acc) ∧
      (acc = true ↔
        ((∀ i < DEG_DVD - DEG_DVS + 1, q.getD i 0 < Q) ∧
          (∀ i < DEG_DVS, (padRemainder DEG_DVD DEG_DVS r).getD i 0 < (Q : ℤ)) ∧
          (∀ i ≤ DEG_DVD, 0 ≤ reconSum DEG_DVD DEG_DVS divisor q r i ∧
            reconSum DEG_DVD DEG_DVS divisor q r i / (Q : ℤ)
              < 2 ^ divideNumBits DEG_DVD DEG_DVS Q ∧
            reconSum DEG_DVD DEG_DVS divisor q r i % (Q : ℤ)
              < 2 ^ divideNumBits DEG_DVD DEG_DVS Q) ∧
          (∀ i ≤ DEG_DVD, reconSum DEG_DVD DEG_DVS divisor q r i % (Q : ℤ)
            = dividend.getD i 0))) := by
  have hQz : (0 : ℤ) < (Q : ℤ) := by exact_mod_cast hQ
  refine ⟨_, divide_with_oracle_eq DEG_DVD DEG_DVS Q dividend divisor q r
    hdvd hdvs hdd hlt hq hr1 hr2 hQ, ?_⟩
  have hq1 : ((quotientRangeCheckedIndices DEG_DVD DEG_DVS).all
      (fun i => ltCheck ((loadedQuotient DEG_DVD DEG_DVS q).getD i 0) Q) = true) ↔
      (∀ i < DEG_DVD - DEG_DVS + 1, q.getD i 0 < Q) := by
    rw [quotientRangeCheckedIndices, List.all_eq_true]
    constructor
    · intro h i hi
      have h2 := h i (List.mem_range.mpr hi)
      rw [ltCheck, decide_eq_true_eq] at h2
      rw [loadedQuotient, getD_map_range _ _ hi] at h2
      exact_mod_cast h2.2
    · intro h i hi
      have hi2 := List.mem_range.mp hi
      rw [ltCheck, decide_eq_true_eq, loadedQuotient, getD_map_range _ _ hi2]
      exact ⟨by positivity, by exact_mod_cast h i hi2⟩
  have hr4 : ((remainderRangeCheckedIndices DEG_DVS).all
      (fun i => ltCheck ((padRemainder DEG_DVD DEG_DVS r).getD i 0) Q) = true) ↔
      (∀ i < DEG_DVS, (padRemainder DEG_DVD DEG_DVS r).getD i 0 < (Q : ℤ)) := by
    rw [remainderRangeCheckedIndices, List.all_eq_true]
    constructor
    · intro h i hi
      have h2 := h i (List.mem_range.mpr hi)
      rw [ltCheck, decide_eq_true_eq] at h2
      exact h2.2
    · intro h i hi
      have hi2 := List.mem_range.mp hi
      rw [ltCheck, decide_eq_true_eq]
      refine ⟨?_, h i hi2⟩
      rw [padRemainder, getD_map_range _ _ (by omega : i < DEG_DVD + 1)]
      positivity
  have hr5 : ((List.range (DEG_DVD + 1)).all
      (fun i => divModOK (reconSum DEG_DVD DEG_DVS divisor q r i) Q
        (divideNumBits DEG_DVD DEG_DVS Q)) = true) ↔
      (∀ i ≤ DEG_DVD, 0 ≤ reconSum DEG_DVD DEG_DVS divisor q r i ∧
        reconSum DEG_DVD DEG_DVS divisor q r i / (Q : ℤ)
          < 2 ^ divideNumBits DEG_DVD DEG_DVS Q ∧
        reconSum DEG_DVD DEG_DVS divisor q r i % (Q : ℤ)
          < 2 ^ divideNumBits DEG_DVD DEG_DVS Q) := by
    rw [List.all_eq_true]
    constructor
    · intro h i hi
      have h2 := h i (List.mem_range.mpr (by omega))
      rw [divModOK, decide_eq_true_eq] at h2
      obtain ⟨e1, e2, e3, e4, e5⟩ := h2
      refine ⟨?_, e2, e4⟩
      by_contra hneg
      push_neg at hneg
      have := Int.ediv_neg' hneg hQz
      omega
    · intro h i hi
      have hi2 := List.mem_range.mp hi
      obtain ⟨e1, e2, e3⟩ := h i (by omega)
      rw [divModOK, decide_eq_true_eq]
      exact ⟨Int.ediv_nonneg e1 (by positivity), e2,
        Int.emod_nonneg _ (by omega), e3, Int.emod_lt_of_pos _ hQz⟩
  have hr6 : ((List.range (DEG_DVD + 1)).all
      (fun i => decide (reconSum DEG_DVD DEG_DVS divisor q r i % (Q : ℤ)
        = dividend.getD i 0)) = true) ↔
      (∀ i ≤ DEG_DVD, reconSum DEG_DVD DEG_DVS divisor q r i % (Q : ℤ)
        = dividend.getD i 0) := by
    rw [List.all_eq_true]
    constructor
    · intro h i hi
      have h2 := h i (List.mem_range.mpr (by omega))
      rwa [decide_eq_true_eq] at h2
    · intro h i hi
      have hi2 := List.mem_range.mp hi
      rw [decide_eq_true_eq]
      exact h i (by omega)
  rw [Bool.and_eq_true, Bool.and_eq_true, Bool.and_eq_true, hq1, hr4, hr5, hr6]
  tauto

/-- Counterexample to C1 as stated: for `Q = 11`, divisor `x^3 + 1` and the
in-range dividend `x^4 + 2x^3 + 3x^2`, the oracle's normalized output is
`q = x + 2`, `r = 3x^2 + 10x + 9`, every emitted constraint holds on the
honest witness values (the chip accepts), yet
`q * divisor + r = [1, 2, 3, 11, 11]` differs from the dividend
`[1, 2, 3, 0, 0]` over the integers (they agree only modulo `Q`). -/
theorem C1_counterexample :
    poly_divide_by_cyclo 4 3 11 [(1 : ℤ), 2, 3, 0, 0] [(1 : ℤ), 0, 0, 1] =
        some ([0, 0, 3, 10, 9], true) ∧
      div_euclid 4 3 11 [1, 2, 3, 0, 0] [1, 0, 0, 1] = ([1, 2], [3, 10, 9]) ∧
      poly_mul_diff_deg [(1 : ℤ), 2] [(1 : ℤ), 0, 0, 1] = some [1, 2, 0, 1, 2] ∧
      List.zipWith (· + ·) [(1 : ℤ), 2, 0, 1, 2] [(0 : ℤ), 0, 3, 10, 9]
        = [1, 2, 3, 11, 11] ∧
      [(1 : ℤ), 2, 3, 11, 11] ≠ [(1 : ℤ), 2, 3, 0, 0] := by decide

/-- Witness for C1 (amended) at the spec's concrete scenario
(`dividend = [1,2,3,4,5]`, `divisor = x^3+1`, `Q = 11`, oracle output
`q = [1,2]`, `r = [3,3,3]`). -/
theorem C1_divide_accepts_iff_mod_witness :
    ([(1 : ℤ), 2, 3, 4, 5].length = 4 + 1) ∧ ([(1 : ℤ), 0, 0, 1].length = 3 + 1) ∧
      ([1, 2] : List ℕ).length = 4 - 3 + 1 ∧ (1 ≤ ([3, 3, 3] : List ℕ).length) ∧
      (([3, 3, 3] : List ℕ).length ≤ 3) ∧
      (∃ acc : Bool,
        divide_with_oracle 4 3 11 [(1 : ℤ), 2, 3, 4, 5] [(1 : ℤ), 0, 0, 1]
            [1, 2] [3, 3, 3] = some (padRemainder 4 3 [3, 3, 3], acc) ∧
        (acc = true ↔
          ((∀ i < 4 - 3 + 1, ([1, 2] : List ℕ).getD i 0 < 11) ∧
            (∀ i < 3, (padRemainder 4 3 [3, 3, 3]).getD i 0 < (11 : ℤ)) ∧
            (∀ i ≤ 4, 0 ≤ reconSum 4 3 [(1 : ℤ), 0, 0, 1] [1, 2] [3, 3, 3] i ∧
              reconSum 4 3 [(1 : ℤ), 0, 0, 1] [1, 2] [3, 3, 3] i / (11 : ℤ)
                < 2 ^ divideNumBits 4 3 11 ∧
              reconSum 4 3 [(1 : ℤ), 0, 0, 1] [1, 2] [3, 3, 3] i % (11 : ℤ)
                < 2 ^ divideNumBits 4 3 11) ∧
            (∀ i ≤ 4, reconSum 4 3 [(1 : ℤ), 0, 0, 1] [1, 2] [3, 3, 3] i % (11 : ℤ)
              = [(1 : ℤ), 2, 3, 4, 5].getD i 0)))) :=
  ⟨rfl, rfl, rfl, by decide, by decide,
    C1_divide_accepts_iff_mod 4 3 11 [1, 2, 3, 4, 5] [1, 0, 0, 1] [1, 2] [3, 3, 3]
      rfl rfl (by decide) (by decide) rfl (by decide) (by decide) (by decide)⟩

/-- C2 (code evaluation): the remainder range-check loop covers indices
`0, …, DEG_DVS - 1` — the leading (structurally zero) end of the padded,
descending-order remainder — and not the last `DEG_DVS` indices carrying the
meaningful low-degree coefficients, contrary to the stated claim and to the
intent recorded in the source comments (lines 283-290).  Consequently an
oracle remainder whose meaningful constant coefficient is `14 ≥ Q = 11`
passes every emitted constraint. -/
theorem C2_remainder_checks_wrong_indices :
    remainderRangeCheckedIndices 3 = [0, 1, 2] ∧
      specRemainderCheckedIndices 4 3 = [2, 3, 4] ∧
      remainderRangeCheckedIndices 3 ≠ specRemainderCheckedIndices 4 3 ∧
      divide_with_oracle 4 3 11 [(1 : ℤ), 2, 3, 4, 5] [(1 : ℤ), 0, 0, 1]
          [1, 2] [3, 3, 14] = some ([0, 0, 3, 3, 14], true) ∧
      ¬((14 : ℤ) < 11) := by decide

/-- Witness for C4 at the spec's example `Q = 17`, `a = [20, 5]`. -/
theorem C4_poly_reduce_spec_witness :
    ([(20 : ℤ), 5].length = 1 + 1) ∧
      (∃ out, poly_reduce 1 17 [(20 : ℤ), 5] 5 = some (out, true) ∧
        out.length = 1 + 1 ∧
        ∀ i, i ≤ 1 → out.getD i 0 = [(20 : ℤ), 5].getD i 0 % (17 : ℤ) ∧
          0 ≤ out.getD i 0 ∧ out.getD i 0 < (17 : ℤ)) :=
  ⟨by decide, C4_poly_reduce_spec 1 17 5 [20, 5] (by decide) (by decide) (by decide)⟩

/-!
Session-level lemmas for the traced multiplication chips.
-/

theorem getD_snoc_len (l : List ℤ) (v : ℤ) :
    (l ++ [v]).getD l.length 0 = v := by
  rw [List.getD_append_right l [v] 0 l.length (le_refl _)]
  simp

theorem getD_extend (l t : List ℤ) {j : ℕ} (hj : j < l.length) :
    (l ++ t).getD j 0 = l.getD j 0 :=
  List.getD_append l t 0 j hj

theorem gwitness_vals (g : GCtx) (v : ℤ) :
    (gwitness g v).1.vals = g.vals ++ [v] := rfl

theorem gwitness_cs (g : GCtx) (v : ℤ) : (gwitness g v).1.cs = g.cs := rfl

theorem gwitness_out (g : GCtx) (v : ℤ) : (gwitness g v).2 = g.vals.length := rfl

theorem gmul_vals (g : GCtx) (x y : ℕ) :
    (gmul g x y).1.vals = g.vals ++ [g.vals.getD x 0 * g.vals.getD y 0] := rfl

theorem gmul_cs (g : GCtx) (x y : ℕ) :
    (gmul g x y).1.cs = g.cs ++ [.cmul x y g.vals.length] := rfl

theorem gmul_out (g : GCtx) (x y : ℕ) : (gmul g x y).2 = g.vals.length := rfl

theorem gadd_vals (g : GCtx) (x y : ℕ) :
    (gadd g x y).1.vals = g.vals ++ [g.vals.getD x 0 + g.vals.getD y 0] := rfl

theorem gadd_cs (g : GCtx) (x y : ℕ) :
    (gadd g x y).1.cs = g.cs ++ [.cadd x y g.vals.length] := rfl

theorem gadd_out (g : GCtx) (x y : ℕ) : (gadd g x y).2 = g.vals.length := rfl

theorem cVars_mono {c : MulConstr} {n m : ℕ} (h : n ≤ m) (hc : cVars c n) :
    cVars c m := by
  cases c with
  | cadd x y z =>
    obtain ⟨h1, h2, h3⟩ := hc
    exact ⟨by omega, by omega, by omega⟩
  | cmul x y z =>
    obtain ⟨h1, h2, h3⟩ := hc
    exact ⟨by omega, by omega, by omega⟩

theorem holdsOn_extend {vals t : List ℤ} {c : MulConstr}
    (hc : cVars c vals.length) (h : holdsOn vals c) : holdsOn (vals ++ t) c := by
  cases c with
  | cadd x y z =>
    obtain ⟨h1, h2, h3⟩ := hc
    simp only [holdsOn, holdsC] at h
    simp only [holdsOn, holdsC, getD_extend _ _ h1, getD_extend _ _ h2,
      getD_extend _ _ h3]
    exact h
  | cmul x y z =>
    obtain ⟨h1, h2, h3⟩ := hc
    simp only [holdsOn, holdsC] at h
    simp only [holdsOn, holdsC, getD_extend _ _ h1, getD_extend _ _ h2,
      getD_extend _ _ h3]
    exact h

theorem WFCtx_extend_vals {g : GCtx} (hg : WFCtx g) (t : List ℤ) :
    ∀ c ∈ g.cs, cVars c (g.vals ++ t).length ∧ holdsOn (g.vals ++ t) c := by
  intro c hc
  obtain ⟨h1, h2⟩ := hg c hc
  exact ⟨cVars_mono (by simp) h1, holdsOn_extend h1 h2⟩

theorem gwitness_wf {g : GCtx} (hg : WFCtx g) (v : ℤ) :
    WFCtx (gwitness g v).1 := by
  intro c hc
  exact WFCtx_extend_vals hg [v] c hc

theorem gmul_wf {g : GCtx} {x y : ℕ} (hg : WFCtx g)
    (hx : x < g.vals.length) (hy : y < g.vals.length) :
    WFCtx (gmul g x y).1 := by
  intro c hc
  rw [gmul_cs, List.mem_append] at hc
  rcases hc with hc | hc
  · rw [show (gmul g x y).1.vals = g.vals ++ [_] from gmul_vals g x y]
    exact WFCtx_extend_vals hg _ c hc
  · rw [List.mem_singleton] at hc
    subst hc
    constructor
    · refine ⟨?_, ?_, ?_⟩ <;>
        simp only [gmul_vals, List.length_append, List.length_singleton] <;> omega
    · simp only [holdsOn, holdsC, gmul_vals]
      rw [getD_snoc_len, getD_extend _ _ hx, getD_extend _ _ hy]

theorem gadd_wf {g : GCtx} {x y : ℕ} (hg : WFCtx g)
    (hx : x < g.vals.length) (hy : y < g.vals.length) :
    WFCtx (gadd g x y).1 := by
  intro c hc
  rw [gadd_cs, List.mem_append] at hc
  rcases hc with hc | hc
  · rw [show (gadd g x y).1.vals = g.vals ++ [_] from gadd_vals g x y]
    exact WFCtx_extend_vals hg _ c hc
  · rw [List.mem_singleton] at hc
    subst hc
    constructor
    · refine ⟨?_, ?_, ?_⟩ <;>
        simp only [gadd_vals, List.length_append, List.length_singleton] <;> omega
    · simp only [holdsOn, holdsC, gadd_vals]
      rw [getD_snoc_len, getD_extend _ _ hx, getD_extend _ _ hy]

theorem gprods_spec (inp : List ℤ) (ps : List (ℕ × ℕ))
    (hps : ∀ p ∈ ps, p.1 < inp.length ∧ p.2 < inp.length) :
    ∀ g : GCtx, (∃ t, g.vals = inp ++ t) → WFCtx g →
    (∃ t, (gprods g ps).1.vals = g.vals ++ t) ∧ WFCtx (gprods g ps).1 ∧
      (gprods g ps).2.length = ps.length ∧
      (∀ k, ∀ hk : k < ps.length, (gprods g ps).2.getD k 0 < (gprods g ps).1.vals.length ∧
        (gprods g ps).1.vals.getD ((gprods g ps).2.getD k 0) 0 =
          inp.getD (ps.get ⟨k, hk⟩).1 0 * inp.getD (ps.get ⟨k, hk⟩).2 0) := by
  induction ps with
  | nil =>
    intro g hg hwf
    refine ⟨⟨[], by simp [gprods]⟩, by simpa [gprods] using hwf, by simp [gprods], ?_⟩
    intro k hk
    simp at hk
  | cons p rest ih =>
    intro g hg hwf
    obtain ⟨t0, ht0⟩ := hg
    have hp1 : p.1 < inp.length := (hps p (List.mem_cons_self p rest)).1
    have hp2 : p.2 < inp.length := (hps p (List.mem_cons_self p rest)).2
    have hx : p.1 < g.vals.length := by
      rw [ht0, List.length_append]
      omega
    have hy : p.2 < g.vals.length := by
      rw [ht0, List.length_append]
      omega
    obtain ⟨p1, p2⟩ := p
    have hg1wf : WFCtx (gmul g p1 p2).1 := gmul_wf hwf hx hy
    have hg1ext : ∃ t, (gmul g p1 p2).1.vals = inp ++ t := by
      rw [gmul_vals, ht0]
      exact ⟨_, List.append_assoc _ _ _⟩
    have ihr := ih (fun q hq => hps q (List.mem_cons_of_mem _ hq))
      (gmul g p1 p2).1 hg1ext hg1wf
    obtain ⟨⟨t1, ht1⟩, hwf2, hlen2, hvals2⟩ := ihr
    have hout : gprods g ((p1, p2) :: rest) =
        ((gprods (gmul g p1 p2).1 rest).1,
          (gmul g p1 p2).2 :: (gprods (gmul g p1 p2).1 rest).2) := rfl
    rw [hout]
    have hzlt : (gmul g p1 p2).2 < (gprods (gmul g p1 p2).1 rest).1.vals.length := by
      rw [gmul_out, ht1, gmul_vals, List.length_append, List.length_append,
        List.length_singleton]
      omega
    refine ⟨?_, hwf2, by simp [hlen2], ?_⟩
    · rw [ht1, gmul_vals]
      exact ⟨_, List.append_assoc _ _ _⟩
    · intro k hk
      cases k with
      | zero =>
        refine ⟨hzlt, ?_⟩
        show (gprods (gmul g p1 p2).1 rest).1.vals.getD (gmul g p1 p2).2 0 = _
        rw [ht1, gmul_out,
          getD_extend _ _ (by rw [gmul_vals, List.length_append]; simp),
          gmul_vals, getD_snoc_len, ht0, getD_extend _ _ hp1, getD_extend _ _ hp2]
        rfl
      | succ m =>
        have hm := hvals2 m (by simpa using hk)
        exact hm

theorem gaccum_spec (ps : List ℕ) :
    ∀ (g : GCtx) (acc : ℕ), WFCtx g → acc < g.vals.length →
    (∀ k, ∀ hk : k < ps.length, ps.get ⟨k, hk⟩ < g.vals.length) →
    (∃ t, (gaccum g acc ps).1.vals = g.vals ++ t) ∧ WFCtx (gaccum g acc ps).1 ∧
      (gaccum g acc ps).2 < (gaccum g acc ps).1.vals.length ∧
      (gaccum g acc ps).1.vals.getD (gaccum g acc ps).2 0 =
        g.vals.getD acc 0 + (ps.map (fun p => g.vals.getD p 0)).sum := by
  induction ps with
  | nil =>
    intro g acc hwf hacc hps
    exact ⟨⟨[], by simp [gaccum]⟩, by simpa [gaccum] using hwf,
      by simpa [gaccum] using hacc, by simp [gaccum]⟩
  | cons p rest ih =>
    intro g acc hwf hacc hps
    have hp : p < g.vals.length := hps 0 (by simp)
    have hu : gaccum g acc (p :: rest) =
        gaccum (gadd g acc p).1 (gadd g acc p).2 rest := rfl
    have hg1wf : WFCtx (gadd g acc p).1 := gadd_wf hwf hacc hp
    have ihr := ih (gadd g acc p).1 (gadd g acc p).2 hg1wf
      (by rw [gadd_out, gadd_vals, List.length_append]; simp)
      (by
        intro k hk
        have h2 := hps (k + 1) (by simpa using hk)
        rw [gadd_vals, List.length_append, List.length_singleton]
        have h3 : (p :: rest).get ⟨k + 1, by simpa using hk⟩ = rest.get ⟨k, hk⟩ := rfl
        rw [h3] at h2
        omega)
    obtain ⟨⟨t1, ht1⟩, hwf2, hout2, hval2⟩ := ihr
    rw [hu]
    refine ⟨?_, hwf2, hout2, ?_⟩
    · rw [ht1, gadd_vals]
      exact ⟨_, List.append_assoc _ _ _⟩
    · rw [hval2, gadd_out]
      have hrest : (rest.map (fun q => (gadd g acc p).1.vals.getD q 0)).sum =
          (rest.map (fun q => g.vals.getD q 0)).sum := by
        congr 1
        apply List.map_congr_left
        intro q hq
        obtain ⟨k, rfl⟩ := List.mem_iff_get.mp hq
        have h2 := hps (k.val + 1) (by simpa using k.isLt)
        have h3 : (p :: rest).get ⟨k.val + 1, by simpa using k.isLt⟩ = rest.get k := rfl
        rw [h3] at h2
        rw [gadd_vals]
        exact getD_extend _ _ h2
      rw [hrest, gadd_vals, getD_snoc_len, List.map_cons, List.sum_cons]
      ring

theorem coeffStep_spec (inp : List ℤ) (g : GCtx) (pairs : List (ℕ × ℕ))
    (seedVal : ℤ) (hg : ∃ t, g.vals = inp ++ t) (hwf : WFCtx g)
    (hpairs : ∀ p ∈ pairs, p.1 < inp.length ∧ p.2 < inp.length) :
    (∃ t, (coeffStep g pairs seedVal).1.vals = g.vals ++ t) ∧
      WFCtx (coeffStep g pairs seedVal).1 ∧
      (coeffStep g pairs seedVal).2 < (coeffStep g pairs seedVal).1.vals.length ∧
      (coeffStep g pairs seedVal).1.vals.getD (coeffStep g pairs seedVal).2 0 =
        seedVal + (pairs.map (fun p => inp.getD p.1 0 * inp.getD p.2 0)).sum := by
  obtain ⟨⟨t1, ht1⟩, hwf1, hlen1, hvals1⟩ := gprods_spec inp pairs hpairs g hg hwf
  have hwwf : WFCtx (gwitness (gprods g pairs).1 seedVal).1 := gwitness_wf hwf1 seedVal
  have hpsb : ∀ k, ∀ hk : k < (gprods g pairs).2.length,
      (gprods g pairs).2.get ⟨k, hk⟩ <
        (gwitness (gprods g pairs).1 seedVal).1.vals.length := by
    intro k hk
    have h2 := (hvals1 k (by omega)).1
    rw [gwitness_vals, List.length_append, List.length_singleton]
    rw [List.getD_eq_get _ _ hk] at h2
    omega
  obtain ⟨⟨t2, ht2⟩, hwf2, hout2, hval2⟩ := gaccum_spec (gprods g pairs).2
    (gwitness (gprods g pairs).1 seedVal).1 (gwitness (gprods g pairs).1 seedVal).2
    hwwf (by rw [gwitness_out, gwitness_vals, List.length_append]; simp) hpsb
  have hcs : coeffStep g pairs seedVal =
      gaccum (gwitness (gprods g pairs).1 seedVal).1
        (gwitness (gprods g pairs).1 seedVal).2 (gprods g pairs).2 := rfl
  rw [hcs]
  refine ⟨?_, hwf2, hout2, ?_⟩
  · rw [ht2, gwitness_vals, ht1]
    exact ⟨_, by rw [List.append_assoc, List.append_assoc]⟩
  · rw [hval2, gwitness_out, gwitness_vals, getD_snoc_len]
    congr 1
    have hmap : ((gprods g pairs).2.map
          (fun q => ((gprods g pairs).1.vals ++ [seedVal]).getD q 0)).sum =
        (pairs.map (fun p => inp.getD p.1 0 * inp.getD p.2 0)).sum := by
      congr 1
      apply List.ext_getElem
      · simp [hlen1]
      · intro k h1 h2
        simp only [List.getElem_map]
        have hk2 : k < (gprods g pairs).2.length := by simpa using h1
        have h3 := hvals1 k (by omega)
        rw [show (gprods g pairs).2[k] = (gprods g pairs).2.get ⟨k, hk2⟩ from rfl]
        rw [← List.getD_eq_get _ 0 hk2]
        rw [getD_extend _ _ (h3.1), h3.2]
        rfl
    rw [hmap]

theorem getD_extend_nat (l t : List ℕ) {j : ℕ} (hj : j < l.length) :
    (l ++ t).getD j 0 = l.getD j 0 :=
  List.getD_append l t 0 j hj

theorem mulTraceAux_spec (a b : List ℤ) (pairsOf : ℕ → List (ℕ × ℕ)) (seed : ℕ → ℤ) :
    ∀ n : ℕ,
    (∀ i < n, ∀ p ∈ pairsOf i, p.1 < (a ++ b).length ∧ p.2 < (a ++ b).length) →
    (∃ t, (mulTraceAux a b pairsOf seed n).1.vals = (a ++ b) ++ t) ∧
      WFCtx (mulTraceAux a b pairsOf seed n).1 ∧
      (mulTraceAux a b pairsOf seed n).2.length = n ∧
      (∀ i < n, (mulTraceAux a b pairsOf seed n).2.getD i 0 <
          (mulTraceAux a b pairsOf seed n).1.vals.length ∧
        (mulTraceAux a b pairsOf seed n).1.vals.getD
            ((mulTraceAux a b pairsOf seed n).2.getD i 0) 0 =
          seed i + ((pairsOf i).map
            (fun p => (a ++ b).getD p.1 0 * (a ++ b).getD p.2 0)).sum) := by
  intro n
  induction n with
  | zero =>
    intro hp
    refine ⟨⟨[], by simp [mulTraceAux]⟩, ?_, rfl, ?_⟩
    · intro c hc
      simp only [mulTraceAux] at hc
      simp at hc
    · intro i hi
      omega
  | succ m ih =>
    intro hp
    obtain ⟨⟨t0, ht0⟩, hwf0, hlen0, hvals0⟩ := ih (fun i hi => hp i (by omega))
    obtain ⟨⟨t1, ht1⟩, hwf1, hout1, hval1⟩ := coeffStep_spec (a ++ b)
      (mulTraceAux a b pairsOf seed m).1 (pairsOf m) (seed m)
      ⟨t0, ht0⟩ hwf0 (hp m (by omega))
    have hform : mulTraceAux a b pairsOf seed (m + 1) =
        ((coeffStep (mulTraceAux a b pairsOf seed m).1 (pairsOf m) (seed m)).1,
          (mulTraceAux a b pairsOf seed m).2 ++
            [(coeffStep (mulTraceAux a b pairsOf seed m).1 (pairsOf m) (seed m)).2]) := rfl
    rw [hform]
    refine ⟨?_, hwf1, by simp [hlen0], ?_⟩
    · rw [ht1, ht0]
      exact ⟨_, List.append_assoc _ _ _⟩
    · intro i hi
      by_cases him : i < m
      · have hold := hvals0 i him
        have hidx : ((mulTraceAux a b pairsOf seed m).2 ++
            [(coeffStep (mulTraceAux a b pairsOf seed m).1 (pairsOf m) (seed m)).2]).getD i 0 =
            (mulTraceAux a b pairsOf seed m).2.getD i 0 :=
          getD_extend_nat _ _ (by omega)

        refine ⟨?_, ?_⟩
        · rw [hidx, ht1, List.length_append]
          omega
        · rw [hidx, ht1, getD_extend _ _ hold.1]
          exact hold.2
      · have him2 : i = m := by omega
        subst him2
        have hidx : ((mulTraceAux a b pairsOf seed i).2 ++
            [(coeffStep (mulTraceAux a b pairsOf seed i).1 (pairsOf i) (seed i)).2]).getD i 0 =
            (coeffStep (mulTraceAux a b pairsOf seed i).1 (pairsOf i) (seed i)).2 := by
          rw [List.getD_append_right _ _ 0 i (by omega), hlen0]
          simp
        rw [hidx]
        exact ⟨hout1, hval1⟩

theorem gmul_struct (g g2 : GCtx) (x y : ℕ)
    (hl : g.vals.length = g2.vals.length) (hc : g.cs = g2.cs) :
    (gmul g x y).1.vals.length = (gmul g2 x y).1.vals.length ∧
      (gmul g x y).1.cs = (gmul g2 x y).1.cs ∧ (gmul g x y).2 = (gmul g2 x y).2 := by
  refine ⟨?_, ?_, ?_⟩
  · rw [gmul_vals, gmul_vals, List.length_append, List.length_append, hl]
    simp only [List.length_singleton]
  · rw [gmul_cs, gmul_cs, hc, hl]
  · rw [gmul_out, gmul_out, hl]

theorem gadd_struct (g g2 : GCtx) (x y : ℕ)
    (hl : g.vals.length = g2.vals.length) (hc : g.cs = g2.cs) :
    (gadd g x y).1.vals.length = (gadd g2 x y).1.vals.length ∧
      (gadd g x y).1.cs = (gadd g2 x y).1.cs ∧ (gadd g x y).2 = (gadd g2 x y).2 := by
  refine ⟨?_, ?_, ?_⟩
  · rw [gadd_vals, gadd_vals, List.length_append, List.length_append, hl]
    simp only [List.length_singleton]
  · rw [gadd_cs, gadd_cs, hc, hl]
  · rw [gadd_out, gadd_out, hl]

theorem gprods_struct (ps : List (ℕ × ℕ)) :
    ∀ g g2 : GCtx, g.vals.length = g2.vals.length → g.cs = g2.cs →
    (gprods g ps).1.vals.length = (gprods g2 ps).1.vals.length ∧
      (gprods g ps).1.cs = (gprods g2 ps).1.cs ∧
      (gprods g ps).2 = (gprods g2 ps).2 := by
  induction ps with
  | nil =>
    intro g g2 hl hc
    exact ⟨hl, hc, rfl⟩
  | cons p rest ih =>
    intro g g2 hl hc
    obtain ⟨p1, p2⟩ := p
    obtain ⟨hl1, hc1, ho1⟩ := gmul_struct g g2 p1 p2 hl hc
    obtain ⟨hl2, hc2, ho2⟩ := ih (gmul g p1 p2).1 (gmul g2 p1 p2).1 hl1 hc1
    have e1 : gprods g ((p1, p2) :: rest) =
        ((gprods (gmul g p1 p2).1 rest).1,
          (gmul g p1 p2).2 :: (gprods (gmul g p1 p2).1 rest).2) := rfl
    have e2 : gprods g2 ((p1, p2) :: rest) =
        ((gprods (gmul g2 p1 p2).1 rest).1,
          (gmul g2 p1 p2).2 :: (gprods (gmul g2 p1 p2).1 rest).2) := rfl
    rw [e1, e2]
    exact ⟨hl2, hc2, by rw [ho1, ho2]⟩

theorem gaccum_struct (ps : List ℕ) :
    ∀ (g g2 : GCtx) (acc : ℕ), g.vals.length = g2.vals.length → g.cs = g2.cs →
    (gaccum g acc ps).1.vals.length = (gaccum g2 acc ps).1.vals.length ∧
      (gaccum g acc ps).1.cs = (gaccum g2 acc ps).1.cs ∧
      (gaccum g acc ps).2 = (gaccum g2 acc ps).2 := by
  induction ps with
  | nil =>
    intro g g2 acc hl hc
    exact ⟨hl, hc, rfl⟩
  | cons p rest ih =>
    intro g g2 acc hl hc
    obtain ⟨hl1, hc1, ho1⟩ := gadd_struct g g2 acc p hl hc
    have e1 : gaccum g acc (p :: rest) =
        gaccum (gadd g acc p).1 (gadd g acc p).2 rest := rfl
    have e2 : gaccum g2 acc (p :: rest) =
        gaccum (gadd g2 acc p).1 (gadd g2 acc p).2 rest := rfl
    rw [e1, e2, ho1]
    exact ih (gadd g acc p).1 (gadd g2 acc p).1 (gadd g2 acc p).2 hl1 hc1

theorem coeffStep_struct (g g2 : GCtx) (pairs : List (ℕ × ℕ)) (v v2 : ℤ)
    (hl : g.vals.length = g2.vals.length) (hc : g.cs = g2.cs) :
    (coeffStep g pairs v).1.vals.length = (coeffStep g2 pairs v2).1.vals.length ∧
      (coeffStep g pairs v).1.cs = (coeffStep g2 pairs v2).1.cs ∧
      (coeffStep g pairs v).2 = (coeffStep g2 pairs v2).2 := by
  obtain ⟨hl1, hc1, ho1⟩ := gprods_struct pairs g g2 hl hc
  have hwl : (gwitness (gprods g pairs).1 v).1.vals.length =
      (gwitness (gprods g2 pairs).1 v2).1.vals.length := by
    rw [gwitness_vals, gwitness_vals, List.length_append, List.length_append, hl1,
      List.length_singleton, List.length_singleton]
  have hwc : (gwitness (gprods g pairs).1 v).1.cs =
      (gwitness (gprods g2 pairs).1 v2).1.cs := by
    rw [gwitness_cs, gwitness_cs, hc1]
  have hwo : (gwitness (gprods g pairs).1 v).2 =
      (gwitness (gprods g2 pairs).1 v2).2 := by
    rw [gwitness_out, gwitness_out, hl1]
  have e1 : coeffStep g pairs v =
      gaccum (gwitness (gprods g pairs).1 v).1
        (gwitness (gprods g pairs).1 v).2 (gprods g pairs).2 := rfl
  have e2 : coeffStep g2 pairs v2 =
      gaccum (gwitness (gprods g2 pairs).1 v2).1
        (gwitness (gprods g2 pairs).1 v2).2 (gprods g2 pairs).2 := rfl
  rw [e1, e2, ho1, hwo]
  exact gaccum_struct (gprods g2 pairs).2 _ _ _ hwl hwc

theorem mulTraceAux_struct (a b : List ℤ) (pairsOf : ℕ → List (ℕ × ℕ))
    (seed seed2 : ℕ → ℤ) :
    ∀ n : ℕ,
    (mulTraceAux a b pairsOf seed n).1.vals.length =
        (mulTraceAux a b pairsOf seed2 n).1.vals.length ∧
      (mulTraceAux a b pairsOf seed n).1.cs =
        (mulTraceAux a b pairsOf seed2 n).1.cs ∧
      (mulTraceAux a b pairsOf seed n).2 = (mulTraceAux a b pairsOf seed2 n).2 := by
  intro n
  induction n with
  | zero => exact ⟨rfl, rfl, rfl⟩
  | succ m ih =>
    obtain ⟨hl, hc, ho⟩ := ih
    obtain ⟨hl1, hc1, ho1⟩ := coeffStep_struct
      (mulTraceAux a b pairsOf seed m).1 (mulTraceAux a b pairsOf seed2 m).1
      (pairsOf m) (seed m) (seed2 m) hl hc
    have e1 : mulTraceAux a b pairsOf seed (m + 1) =
        ((coeffStep (mulTraceAux a b pairsOf seed m).1 (pairsOf m) (seed m)).1,
          (mulTraceAux a b pairsOf seed m).2 ++
            [(coeffStep (mulTraceAux a b pairsOf seed m).1 (pairsOf m) (seed m)).2]) := rfl
    have e2 : mulTraceAux a b pairsOf seed2 (m + 1) =
        ((coeffStep (mulTraceAux a b pairsOf seed2 m).1 (pairsOf m) (seed2 m)).1,
          (mulTraceAux a b pairsOf seed2 m).2 ++
            [(coeffStep (mulTraceAux a b pairsOf seed2 m).1 (pairsOf m) (seed2 m)).2]) := rfl
    rw [e1, e2]
    exact ⟨hl1, hc1, by rw [ho, ho1]⟩

theorem mulEqualPairs_wf (DEG : ℕ) (a b : List ℤ)
    (ha : a.length = DEG + 1) (hb : b.length = DEG + 1) :
    ∀ i < 2 * DEG + 1, ∀ p ∈ mulEqualPairs DEG a.length i,
      p.1 < (a ++ b).length ∧ p.2 < (a ++ b).length := by
  intro i hi p hp
  rw [mulEqualPairs] at hp
  rw [List.length_append]
  by_cases hc : i < DEG + 1
  · rw [if_pos hc, List.mem_map] at hp
    obtain ⟨j, hj, rfl⟩ := hp
    have hj2 := List.mem_range.mp hj
    constructor <;> simp only <;> omega
  · rw [if_neg hc, List.mem_map] at hp
    obtain ⟨j, hj, rfl⟩ := hp
    obtain ⟨k, hk, rfl⟩ := List.mem_range'.mp hj
    constructor <;> simp only <;> omega

theorem mulDiffPairs_wf (a b : List ℤ) (ha : a ≠ []) (hb : b ≠ []) :
    ∀ i < a.length - 1 + (b.length - 1) + 1,
      ∀ p ∈ mulDiffPairs (a.length - 1) (b.length - 1) a.length i,
      p.1 < (a ++ b).length ∧ p.2 < (a ++ b).length := by
  have ha1 : 1 ≤ a.length := List.length_pos.mpr ha
  have hb1 : 1 ≤ b.length := List.length_pos.mpr hb
  intro i hi p hp
  rw [mulDiffPairs, List.mem_filterMap] at hp
  obtain ⟨j, hj, hjp⟩ := hp
  rw [List.length_append]
  by_cases hcond : j ≤ a.length - 1 ∧ i - j ≤ b.length - 1
  · rw [if_pos hcond] at hjp
    obtain ⟨rfl⟩ := Option.some_injective _ hjp
    constructor <;> simp only <;> omega
  · rw [if_neg hcond] at hjp
    exact absurd hjp (by simp)

theorem mulEqualPairs_sum (DEG : ℕ) (a b : List ℤ)
    (ha : a.length = DEG + 1) (hb : b.length = DEG + 1) (i : ℕ) :
    ((mulEqualPairs DEG a.length i).map
      (fun p => (a ++ b).getD p.1 0 * (a ++ b).getD p.2 0)).sum =
    eqCoeff a b DEG i := by
  rw [mulEqualPairs, eqCoeff]
  by_cases hc : i < DEG + 1
  · rw [if_pos hc, if_pos hc, List.map_map, foldl_add_eq_sum, zero_add]
    congr 1
    apply List.map_congr_left
    intro j hj
    have hj2 := List.mem_range.mp hj
    simp only [Function.comp]
    rw [getD_extend a b (by omega), List.getD_append_right a b 0 _ (by omega)]
    congr 2
    omega
  · rw [if_neg hc, if_neg hc, List.map_map, foldl_add_eq_sum, zero_add]
    congr 1
    apply List.map_congr_left
    intro j hj
    obtain ⟨k, hk, rfl⟩ := List.mem_range'.mp hj
    simp only [Function.comp]
    rw [getD_extend a b (by omega), List.getD_append_right a b 0 _ (by omega)]
    congr 2
    omega

theorem filterMap_congr_mem {α β : Type} {l : List α} {f g : α → Option β}
    (h : ∀ x ∈ l, f x = g x) : l.filterMap f = l.filterMap g := by
  induction l with
  | nil => rfl
  | cons x xs ih =>
    rw [List.filterMap_cons, List.filterMap_cons, h x (List.mem_cons_self x xs),
      ih (fun y hy => h y (List.mem_cons_of_mem x hy))]

theorem mulDiffPairs_sum (a b : List ℤ) (ha : a ≠ []) (hb : b ≠ []) (i : ℕ) :
    ((mulDiffPairs (a.length - 1) (b.length - 1) a.length i).map
      (fun p => (a ++ b).getD p.1 0 * (a ++ b).getD p.2 0)).sum =
    diffCoeff a b (a.length - 1) (b.length - 1) i := by
  have ha1 : 1 ≤ a.length := List.length_pos.mpr ha
  have hb1 : 1 ≤ b.length := List.length_pos.mpr hb
  rw [mulDiffPairs, diffCoeff, foldl_add_eq_sum, zero_add, List.map_filterMap]
  congr 1
  apply filterMap_congr_mem
  intro j hj
  have hj2 := List.mem_range.mp hj
  by_cases hcond : j ≤ a.length - 1 ∧ i - j ≤ b.length - 1
  · rw [if_pos hcond, if_pos hcond, Option.map_some']
    congr 1
    rw [getD_extend a b (by omega), List.getD_append_right a b 0 _ (by omega)]
    congr 2
    omega
  · rw [if_neg hcond, if_neg hcond, Option.map_none']

theorem poly_mul_equal_deg_trace_eq (DEG : ℕ) (a b : List ℤ) (seed : ℕ → ℤ)
    (ha : a.length = DEG + 1) (hb : b.length = DEG + 1) :
    poly_mul_equal_deg_trace DEG a b seed =
      some (mulTraceAux a b (mulEqualPairs DEG a.length) seed (2 * DEG + 1)) := by
  unfold poly_mul_equal_deg_trace
  rw [checkedSub_some (by omega), obind_some, checkedSub_some (by omega), obind_some,
    assertC_pos (by omega), obind_some, assertC_pos (by omega), obind_some]

theorem poly_mul_diff_deg_trace_eq (a b : List ℤ) (seed : ℕ → ℤ)
    (ha : a ≠ []) (hb : b ≠ []) :
    poly_mul_diff_deg_trace a b seed =
      some (mulTraceAux a b (mulDiffPairs (a.length - 1) (b.length - 1) a.length)
        seed (a.length - 1 + (b.length - 1) + 1)) := by
  have ha1 : 1 ≤ a.length := List.length_pos.mpr ha
  have hb1 : 1 ≤ b.length := List.length_pos.mpr hb
  unfold poly_mul_diff_deg_trace
  rw [checkedSub_some (by omega), obind_some, checkedSub_some (by omega), obind_some]

/-- C9: in both multiplication chips, each output coefficient is accumulated
onto a `load_witness(F::zero())` seed variable that carries no constraint.
The honestly assigned output values are the convolution coefficients, but
replacing each seed value by an arbitrary `d` yields another assignment that
satisfies every emitted gate constraint, agrees with the honest one on all
input variables, and gives every output coefficient the value
`convolution + d`. -/
theorem C9_mul_seed_unconstrained (DEG : ℕ) (a b : List ℤ)
    (ha : a.length = DEG + 1) (hb : b.length = DEG + 1) (d : ℤ) :
    (∃ g outs, poly_mul_equal_deg_trace DEG a b (fun j => 0) = some (g, outs) ∧
      outs.length = 2 * DEG + 1 ∧
      (∀ i < 2 * DEG + 1, g.vals.getD (outs.getD i 0) 0 = convCoeff a b i) ∧
      (∃ σ : ℕ → ℤ, (∀ c ∈ g.cs, holdsC σ c) ∧
        (∀ j < (a ++ b).length, σ j = (a ++ b).getD j 0) ∧
        (∀ i < 2 * DEG + 1, σ (outs.getD i 0) = convCoeff a b i + d))) ∧
    (∃ g outs, poly_mul_diff_deg_trace a b (fun j => 0) = some (g, outs) ∧
      outs.length = 2 * DEG + 1 ∧
      (∀ i < 2 * DEG + 1, g.vals.getD (outs.getD i 0) 0 = convCoeff a b i) ∧
      (∃ σ : ℕ → ℤ, (∀ c ∈ g.cs, holdsC σ c) ∧
        (∀ j < (a ++ b).length, σ j = (a ++ b).getD j 0) ∧
        (∀ i < 2 * DEG + 1, σ (outs.getD i 0) = convCoeff a b i + d))) := by
  have hane : a ≠ [] := by
    intro h
    rw [h] at ha
    simp at ha
  have hbne : b ≠ [] := by
    intro h
    rw [h] at hb
    simp at hb
  constructor
  · have hwfp := mulEqualPairs_wf DEG a b ha hb
    obtain ⟨⟨t0, ht0⟩, hwf0, hlen0, hvals0⟩ :=
      mulTraceAux_spec a b (mulEqualPairs DEG a.length) (fun j => (0 : ℤ))
        (2 * DEG + 1) hwfp
    obtain ⟨⟨t1, ht1⟩, hwf1, hlen1, hvals1⟩ :=
      mulTraceAux_spec a b (mulEqualPairs DEG a.length) (fun j => d)
        (2 * DEG + 1) hwfp
    obtain ⟨hsl, hsc, hso⟩ := mulTraceAux_struct a b (mulEqualPairs DEG a.length)
      (fun j => (0 : ℤ)) (fun j => d) (2 * DEG + 1)
    refine ⟨(mulTraceAux a b (mulEqualPairs DEG a.length) (fun j => (0 : ℤ))
        (2 * DEG + 1)).1,
      (mulTraceAux a b (mulEqualPairs DEG a.length) (fun j => (0 : ℤ))
        (2 * DEG + 1)).2, ?_, hlen0, ?_, ?_⟩
    case _ => rw [poly_mul_equal_deg_trace_eq DEG a b _ ha hb]
    · intro i hi
      rw [(hvals0 i hi).2, zero_add, mulEqualPairs_sum DEG a b ha hb i,
        eqCoeff_eq_convCoeff DEG a b i ha hb (by omega)]
    · refine ⟨fun j => (mulTraceAux a b (mulEqualPairs DEG a.length)
        (fun j => d) (2 * DEG + 1)).1.vals.getD j 0, ?_, ?_, ?_⟩
      · intro c hc
        rw [hsc] at hc
        exact (hwf1 c hc).2
      · intro j hj
        show (mulTraceAux a b (mulEqualPairs DEG a.length) (fun j => d)
          (2 * DEG + 1)).1.vals.getD j 0 = _
        rw [ht1]
        exact getD_extend _ _ hj
      · intro i hi
        show (mulTraceAux a b (mulEqualPairs DEG a.length) (fun j => d)
          (2 * DEG + 1)).1.vals.getD _ 0 = _
        rw [hso, (hvals1 i hi).2, mulEqualPairs_sum DEG a b ha hb i,
          eqCoeff_eq_convCoeff DEG a b i ha hb (by omega)]
        ring
  · have hcount : a.length - 1 + (b.length - 1) + 1 = 2 * DEG + 1 := by omega
    have hwfp := mulDiffPairs_wf a b hane hbne
    rw [hcount] at hwfp
    obtain ⟨⟨t0, ht0⟩, hwf0, hlen0, hvals0⟩ :=
      mulTraceAux_spec a b (mulDiffPairs (a.length - 1) (b.length - 1) a.length)
        (fun j => (0 : ℤ)) (2 * DEG + 1) hwfp
    obtain ⟨⟨t1, ht1⟩, hwf1, hlen1, hvals1⟩ :=
      mulTraceAux_spec a b (mulDiffPairs (a.length - 1) (b.length - 1) a.length)
        (fun j => d) (2 * DEG + 1) hwfp
    obtain ⟨hsl, hsc, hso⟩ := mulTraceAux_struct a b
      (mulDiffPairs (a.length - 1) (b.length - 1) a.length)
      (fun j => (0 : ℤ)) (fun j => d) (2 * DEG + 1)
    have htr := poly_mul_diff_deg_trace_eq a b (fun j => (0 : ℤ)) hane hbne
    rw [hcount] at htr
    refine ⟨(mulTraceAux a b (mulDiffPairs (a.length - 1) (b.length - 1) a.length)
        (fun j => (0 : ℤ)) (2 * DEG + 1)).1,
      (mulTraceAux a b (mulDiffPairs (a.length - 1) (b.length - 1) a.length)
        (fun j => (0 : ℤ)) (2 * DEG + 1)).2, ?_, hlen0, ?_, ?_⟩
    case _ => rw [htr]
    · intro i hi
      rw [(hvals0 i hi).2, zero_add, mulDiffPairs_sum a b hane hbne i,
        diffCoeff_eq_convCoeff a b i hane hbne]
    · refine ⟨fun j => (mulTraceAux a b
        (mulDiffPairs (a.length - 1) (b.length - 1) a.length)
        (fun j => d) (2 * DEG + 1)).1.vals.getD j 0, ?_, ?_, ?_⟩
      · intro c hc
        rw [hsc] at hc
        exact (hwf1 c hc).2
      · intro j hj
        show (mulTraceAux a b (mulDiffPairs (a.length - 1) (b.length - 1) a.length)
          (fun j => d) (2 * DEG + 1)).1.vals.getD j 0 = _
        rw [ht1]
        exact getD_extend _ _ hj
      · intro i hi
        show (mulTraceAux a b (mulDiffPairs (a.length - 1) (b.length - 1) a.length)
          (fun j => d) (2 * DEG + 1)).1.vals.getD _ 0 = _
        rw [hso, (hvals1 i hi).2, mulDiffPairs_sum a b hane hbne i,
          diffCoeff_eq_convCoeff a b i hane hbne]
        ring

/-- Witness for C9 at `DEG = 1`, `a = [1, 2]`, `b = [3, 4]`, seed shift `5`. -/
theorem C9_mul_seed_unconstrained_witness :
    ([(1 : ℤ), 2].length = 1 + 1) ∧ ([(3 : ℤ), 4].length = 1 + 1) ∧
      ((∃ g outs, poly_mul_equal_deg_trace 1 [(1 : ℤ), 2] [(3 : ℤ), 4] (fun j => 0) =
          some (g, outs) ∧
        outs.length = 2 * 1 + 1 ∧
        (∀ i < 2 * 1 + 1, g.vals.getD (outs.getD i 0) 0 =
          convCoeff [(1 : ℤ), 2] [(3 : ℤ), 4] i) ∧
        (∃ σ : ℕ → ℤ, (∀ c ∈ g.cs, holdsC σ c) ∧
          (∀ j < ([(1 : ℤ), 2] ++ [(3 : ℤ), 4]).length,
            σ j = ([(1 : ℤ), 2] ++ [(3 : ℤ), 4]).getD j 0) ∧
          (∀ i < 2 * 1 + 1, σ (outs.getD i 0) =
            convCoeff [(1 : ℤ), 2] [(3 : ℤ), 4] i + 5))) ∧
      (∃ g outs, poly_mul_diff_deg_trace [(1 : ℤ), 2] [(3 : ℤ), 4] (fun j => 0) =
          some (g, outs) ∧
        outs.length = 2 * 1 + 1 ∧
        (∀ i < 2 * 1 + 1, g.vals.getD (outs.getD i 0) 0 =
          convCoeff [(1 : ℤ), 2] [(3 : ℤ), 4] i) ∧
        (∃ σ : ℕ → ℤ, (∀ c ∈ g.cs, holdsC σ c) ∧
          (∀ j < ([(1 : ℤ), 2] ++ [(3 : ℤ), 4]).length,
            σ j = ([(1 : ℤ), 2] ++ [(3 : ℤ), 4]).getD j 0) ∧
          (∀ i < 2 * 1 + 1, σ (outs.getD i 0) =
            convCoeff [(1 : ℤ), 2] [(3 : ℤ), 4] i + 5)))) :=
  ⟨rfl, rfl, C9_mul_seed_unconstrained 1 [1, 2] [3, 4] rfl rfl 5⟩

end ZkFhe
